import Mathlib

/-!
Verification of the POVM layer of the mpnum repository (`mpnum/povm/mppovm.py`)
and of the compression regression property exercised by `tests/mparray_test.py`.

Tensor chains are embedded by their dense global tensors: a multipartite array
with one physical index per site is a function `List ℕ → M` evaluated on the
list of per-site indices, together with the list of per-site dimensions.
Contractions performed by the external tensor-algebra collaborator (`mp.dot`,
`mp.prune`, `from_kron`, ...; the file `mpnum/mparray.py` is not part of the
sources) are embedded by their dense semantics: sums over all valid index
lists.  Probability arrays are modelled over `ℚ` (exact arithmetic standing in
for the floating-point arrays of the source), POVM element tensors over `ℂ`.
-/

/-- Sum of `f` over all index lists `idx` with `idx.length = dims.length` and
`idx[k] < dims[k]` for every `k` (the dense semantics of summing a tensor with
per-site dimensions `dims` over all of its indices). -/
def sumOver {M : Type} [AddCommMonoid M] : List ℕ → (List ℕ → M) → M
  | [], f => f []
  | d :: ds, f => ∑ i in Finset.range d, sumOver ds (fun idx => f (i :: idx))

/-- `IdxOk dims idx` states that `idx` is a valid index tuple for per-site
dimensions `dims`: same length, and pointwise strictly below the dimension. -/
def IdxOk (dims idx : List ℕ) : Prop := List.Forall₂ (fun i d => i < d) idx dims

instance (dims idx : List ℕ) : Decidable (IdxOk dims idx) :=
  inferInstanceAs (Decidable (List.Forall₂ (fun i d => i < d) idx dims))

theorem sumOver_nil {M : Type} [AddCommMonoid M] (f : List ℕ → M) :
    sumOver [] f = f [] := rfl

theorem sumOver_cons {M : Type} [AddCommMonoid M] (d : ℕ) (ds : List ℕ) (f : List ℕ → M) :
    sumOver (d :: ds) f = ∑ i in Finset.range d, sumOver ds (fun idx => f (i :: idx)) := rfl

theorem sumOver_congr {M : Type} [AddCommMonoid M] {ds : List ℕ} {f g : List ℕ → M}
    (h : ∀ idx, IdxOk ds idx → f idx = g idx) : sumOver ds f = sumOver ds g := by
  induction ds generalizing f g with
  | nil => exact h [] List.Forall₂.nil
  | cons d ds ih =>
      simp only [sumOver_cons]
      refine Finset.sum_congr rfl (fun i hi => ?_)
      exact ih (fun idx hidx => h (i :: idx) (List.Forall₂.cons (Finset.mem_range.mp hi) hidx))

theorem sumOver_nonneg {ds : List ℕ} {f : List ℕ → ℚ}
    (h : ∀ idx, IdxOk ds idx → 0 ≤ f idx) : 0 ≤ sumOver ds f := by
  induction ds generalizing f with
  | nil => exact h [] List.Forall₂.nil
  | cons d ds ih =>
      rw [sumOver_cons]
      apply Finset.sum_nonneg
      intro i hi
      exact ih (fun idx hidx => h (i :: idx) (List.Forall₂.cons (Finset.mem_range.mp hi) hidx))

/-- A single entry of a nonnegative tensor is at most the sum over all entries. -/
theorem single_le_sumOver {ds idx : List ℕ} {f : List ℕ → ℚ}
    (hidx : IdxOk ds idx) (h : ∀ j, IdxOk ds j → 0 ≤ f j) : f idx ≤ sumOver ds f := by
  induction hidx generalizing f with
  | nil => exact le_of_eq rfl
  | @cons i d idx ds hi hrest ih =>
      have h1 : f (i :: idx) ≤ sumOver ds (fun j => f (i :: j)) :=
        ih (fun j hj => h (i :: j) (List.Forall₂.cons hi hj))
      refine h1.trans ?_
      rw [sumOver_cons]
      refine Finset.single_le_sum (f := fun k => sumOver ds (fun j => f (k :: j)))
        (fun k hk => ?_) (Finset.mem_range.mpr hi)
      exact sumOver_nonneg (fun j hj => h (k :: j) (List.Forall₂.cons (Finset.mem_range.mp hk) hj))

theorem sumOver_append {M : Type} [AddCommMonoid M] (ds es : List ℕ) (f : List ℕ → M) :
    sumOver (ds ++ es) f = sumOver ds (fun a => sumOver es (fun b => f (a ++ b))) := by
  induction ds generalizing f with
  | nil => simp [sumOver_nil]
  | cons d ds ih =>
      simp only [List.cons_append, sumOver_cons]
      exact Finset.sum_congr rfl (fun i _ => ih (fun idx => f (i :: idx)))

theorem sumOver_finsetSum {M : Type} [AddCommMonoid M] {α : Type} (s : Finset α)
    (ds : List ℕ) (F : α → List ℕ → M) :
    sumOver ds (fun b => ∑ i in s, F i b) = ∑ i in s, sumOver ds (F i) := by
  induction ds generalizing F with
  | nil => rfl
  | cons d ds ih =>
      simp only [sumOver_cons]
      rw [Finset.sum_comm]
      exact Finset.sum_congr rfl (fun j _ => ih (fun i idx => F i (j :: idx)))

theorem sumOver_swap {M : Type} [AddCommMonoid M] (ds es : List ℕ) (F : List ℕ → List ℕ → M) :
    sumOver ds (fun a => sumOver es (fun b => F a b)) =
      sumOver es (fun b => sumOver ds (fun a => F a b)) := by
  induction ds generalizing F with
  | nil => rfl
  | cons d ds ih =>
      simp only [sumOver_cons]
      calc ∑ i in Finset.range d, sumOver ds (fun a => sumOver es (fun b => F (i :: a) b))
          = ∑ i in Finset.range d, sumOver es (fun b => sumOver ds (fun a => F (i :: a) b)) :=
            Finset.sum_congr rfl (fun i _ => ih (fun a b => F (i :: a) b))
        _ = sumOver es (fun b => ∑ i in Finset.range d, sumOver ds (fun a => F (i :: a) b)) :=
            (sumOver_finsetSum (Finset.range d) es _).symm

theorem sumOver_add {M : Type} [AddCommMonoid M] (ds : List ℕ) (f g : List ℕ → M) :
    sumOver ds (fun i => f i + g i) = sumOver ds f + sumOver ds g := by
  induction ds generalizing f g with
  | nil => rfl
  | cons d ds ih =>
      simp only [sumOver_cons]
      rw [← Finset.sum_add_distrib]
      exact Finset.sum_congr rfl (fun i _ => ih (fun j => f (i :: j)) (fun j => g (i :: j)))

theorem sumOver_zero {M : Type} [AddCommMonoid M] (ds : List ℕ) :
    sumOver ds (fun _ => (0 : M)) = 0 := by
  induction ds with
  | nil => rfl
  | cons d ds ih => simp [sumOver_cons, ih]

theorem sumOver_ite_eq {M : Type} [AddCommMonoid M] {ds idx : List ℕ}
    (hidx : IdxOk ds idx) (F : List ℕ → M) :
    sumOver ds (fun j => if idx = j then F j else 0) = F idx := by
  induction hidx generalizing F with
  | nil => simp [sumOver_nil]
  | @cons i d idx ds hi hrest ih =>
      simp only [sumOver_cons]
      rw [Finset.sum_eq_single i]
      · have : ∀ j, (i :: idx = i :: j) = (idx = j) := by
          intro j; simp
        simp only [this]
        exact ih (fun j => F (i :: j))
      · intro k _ hk
        have : ∀ j, (i :: idx = k :: j) = False := by
          intro j
          simp [Ne.symm hk]
        simp only [this, if_false]
        exact sumOver_zero ds
      · intro h
        exact absurd (Finset.mem_range.mpr hi) h

/-! ### C7: `MPPovm.count_samples` -/

/-- Embedding of `MPPovm.count_samples`: `counts[out]` is the number of rows of
`samples` equal to the outcome tuple `out`
(`(samples == np.array(out)[None, :]).all(1).sum()`). -/
def count_samples (samples : List (List ℕ)) (out : List ℕ) : ℕ :=
  (samples.filter (fun row => row = out)).length

theorem count_samples_nil (out : List ℕ) : count_samples [] out = 0 := rfl

/-- Summing the indicator of one concrete valid row over all outcome tuples gives 1. -/
theorem sumOver_count_single {dims row : List ℕ} (h : IdxOk dims row) :
    sumOver dims (fun out => if row = out then (1 : ℕ) else 0) = 1 :=
  sumOver_ite_eq h (fun _ => 1)

/-- C7: for samples whose entries are in range, the total count of
`count_samples` over the full outcome grid equals the number of samples
(the invariant `counts.sum() == n_samples` checked by the source). -/
theorem count_samples_total (dims : List ℕ) (samples : List (List ℕ))
    (h : ∀ row ∈ samples, IdxOk dims row) :
    sumOver dims (fun out => count_samples samples out) = samples.length := by
  induction samples with
  | nil =>
      have he : ∀ out, count_samples [] out = 0 := fun _ => rfl
      simp only [he]
      simpa using sumOver_zero (M := ℕ) dims
  | cons row rest ih =>
      have hrow : IdxOk dims row := h row (List.mem_cons_self row rest)
      have hrest : ∀ r ∈ rest, IdxOk dims r := fun r hr => h r (List.mem_cons_of_mem row hr)
      have hsplit : ∀ out, count_samples (row :: rest) out =
          (if row = out then 1 else 0) + count_samples rest out := by
        intro out
        by_cases hc : row = out <;> simp [count_samples, List.filter, hc, Nat.add_comm]
      calc sumOver dims (fun out => count_samples (row :: rest) out)
          = sumOver dims (fun out => (if row = out then 1 else 0) + count_samples rest out) :=
            sumOver_congr (fun out _ => hsplit out)
        _ = sumOver dims (fun out => if row = out then 1 else 0) +
              sumOver dims (fun out => count_samples rest out) :=
            sumOver_add dims _ _
        _ = 1 + rest.length := by rw [sumOver_count_single hrow, ih hrest]
        _ = (row :: rest).length := by simp [Nat.add_comm]

/-- Witness for `count_samples_total`: three samples on one site with two outcomes. -/
theorem count_samples_total_witness :
    sumOver [2] (fun out => count_samples [[0], [1], [0]] out) = 3 :=
  count_samples_total [2] [[0], [1], [0]] (by decide)

/-! ### C8: mode dispatch of `MPPovm.expectations` -/

/-- The three state representations accepted by `MPPovm.expectations`. -/
inductive StateMode | mps | mpdo | pmps
deriving DecidableEq

/-- Embedding of the mode-resolution logic of `MPPovm.expectations`: `'auto'`
is replaced by `'mps'` when every site of the state has one physical leg, by
`'mpdo'` when every site has two; afterwards the mode string is dispatched, and
anything unrecognized raises the `ValueError` of the source. -/
def expectations_mode (mode : String) (plegs : List ℕ) : Except String StateMode :=
  let mode1 := if mode = "auto" then
      (if plegs.all (fun p => p == 1) then "mps"
       else if plegs.all (fun p => p == 2) then "mpdo"
       else mode)
    else mode
  if mode1 = "mps" then Except.ok StateMode.mps
  else if mode1 = "mpdo" then Except.ok StateMode.mpdo
  else if mode1 = "pmps" then Except.ok StateMode.pmps
  else Except.error "Could not understand data dype."

/-- C8: `expectations` fails with the invalid-mode `ValueError` exactly when the
mode is not one of `mps`, `mpdo`, `pmps` and cannot be inferred; under `auto`
the mode is inferred as `mps` iff every site has one physical leg and (for a
nonempty state) as `mpdo` iff every site has two; `pmps` is never inferred and
is obtained exactly by requesting it. -/
theorem expectations_mode_spec (mode : String) (plegs : List ℕ) :
    ((∃ e, expectations_mode mode plegs = Except.error e) ↔
      (mode ≠ "mps" ∧ mode ≠ "mpdo" ∧ mode ≠ "pmps" ∧
        ¬(mode = "auto" ∧ (plegs.all (fun p => p == 1) ∨ plegs.all (fun p => p == 2))))) ∧
    (expectations_mode "auto" plegs = Except.ok StateMode.mps ↔ plegs.all (fun p => p == 1)) ∧
    (plegs ≠ [] →
      (expectations_mode "auto" plegs = Except.ok StateMode.mpdo ↔ plegs.all (fun p => p == 2))) ∧
    (expectations_mode "auto" plegs ≠ Except.ok StateMode.pmps) ∧
    (expectations_mode "pmps" plegs = Except.ok StateMode.pmps) := by
  have hstr : ("auto" ≠ "mps") ∧ ("auto" ≠ "mpdo") ∧ ("auto" ≠ "pmps") ∧
      ("mps" ≠ "mpdo") ∧ ("mps" ≠ "pmps") ∧ ("mpdo" ≠ "pmps") := by
    refine ⟨?_, ?_, ?_, ?_, ?_, ?_⟩ <;> decide
  obtain ⟨h1, h2, h3, h4, h5, h6⟩ := hstr
  refine ⟨?_, ?_, ?_, ?_, ?_⟩
  · by_cases hm : mode = "auto"
    · subst hm
      by_cases ha1 : plegs.all (fun p => p == 1)
      · simp [expectations_mode, ha1, h1, h2, h3]
      · by_cases ha2 : plegs.all (fun p => p == 2)
        · simp [expectations_mode, ha1, ha2, h1, h2, h3, h4]
        · simp [expectations_mode, ha1, ha2, h1, h2, h3]
    · by_cases hmps : mode = "mps"
      · subst hmps; simp [expectations_mode, h1.symm]
      · by_cases hmpdo : mode = "mpdo"
        · subst hmpdo; simp [expectations_mode, h2.symm, h4.symm]
        · by_cases hpmps : mode = "pmps"
          · subst hpmps; simp [expectations_mode, h3.symm, h5.symm, h6.symm]
          · simp [expectations_mode, hm, hmps, hmpdo, hpmps]
  · by_cases ha1 : plegs.all (fun p => p == 1)
    · simp [expectations_mode, ha1]
    · by_cases ha2 : plegs.all (fun p => p == 2)
      · simp [expectations_mode, ha1, ha2, h4]
      · simp [expectations_mode, ha1, ha2, h1, h2, h3]
  · intro hne
    obtain ⟨p, ps, rfl⟩ := List.exists_cons_of_ne_nil hne
    by_cases ha1 : (p :: ps).all (fun q => q == 1)
    · have hp1 : p = 1 := by
        have := List.all_eq_true.mp ha1 p (List.mem_cons_self p ps)
        simpa using this
      have ha2 : ¬((p :: ps).all (fun q => q == 2)) := by
        intro hall
        have := List.all_eq_true.mp hall p (List.mem_cons_self p ps)
        have hp2 : p = 2 := by simpa using this
        omega
      simp [expectations_mode, ha1, ha2]
    · by_cases ha2 : (p :: ps).all (fun q => q == 2)
      · simp [expectations_mode, ha1, ha2, h4]
      · simp [expectations_mode, ha1, ha2, h1, h2, h3]
  · by_cases ha1 : plegs.all (fun p => p == 1)
    · simp [expectations_mode, ha1]
    · by_cases ha2 : plegs.all (fun p => p == 2)
      · simp [expectations_mode, ha1, ha2]
      · simp [expectations_mode, ha1, ha2, h1, h2, h3]
  · simp [expectations_mode, h3.symm, h5.symm, h6.symm]

/-- Witness for `expectations_mode_spec`: a two-leg-per-site (density operator)
state makes `auto` resolve to `mpdo`. -/
theorem expectations_mode_spec_witness :
    expectations_mode "auto" [2, 2] = Except.ok StateMode.mpdo :=
  ((expectations_mode_spec "auto" [2, 2]).2.2.1 (by decide)).mpr (by decide)

/-! ### C4: tolerance checks of `MPPovm._sample_direct` / `MPPovm._sample_cond_single` -/

/-- The elementwise clamp `p[p < 0] = 0.0` of the source: a negative entry is
replaced by exactly zero, any other entry is kept. -/
def clamp_neg (x : ℚ) : ℚ := if x < 0 then 0 else x

/-- Embedding of the check-and-clamp sequence that appears identically in
`MPPovm._sample_direct` and `MPPovm._sample_cond_single`: assert that every
imaginary part is within `eps`, take real parts, assert that no entry is below
`-eps`, clamp negative entries to zero, and assert that the total is within
`eps` of 1.  Probability entries are complex numbers modelled as
(real part, imaginary part) pairs; a failed `assert` is a fatal error. -/
def check_probab (p : List (ℚ × ℚ)) (eps : ℚ) : Except String (List ℚ) :=
  if ∀ z ∈ p, |z.2| ≤ eps then
    if ∀ x ∈ p.map Prod.fst, -eps ≤ x then
      if |((p.map Prod.fst).map clamp_neg).sum - 1| ≤ eps then
        Except.ok ((p.map Prod.fst).map clamp_neg)
      else Except.error "AssertionError: total probability deviates from 1 beyond eps"
    else Except.error "AssertionError: probability entry below -eps"
  else Except.error "AssertionError: imaginary part beyond eps"

/-- C4: entries at least `-eps` are clamped to exactly zero without an error
(provided the other checks pass), while an entry below `-eps`, an imaginary
part beyond `eps`, or a clamped total differing from 1 by more than `eps` is a
fatal assertion failure rather than a silent correction. -/
theorem check_probab_spec (p : List (ℚ × ℚ)) (eps : ℚ) :
    ((∀ z ∈ p, |z.2| ≤ eps) → (∀ z ∈ p, -eps ≤ z.1) →
      |((p.map Prod.fst).map clamp_neg).sum - 1| ≤ eps →
      check_probab p eps = Except.ok ((p.map Prod.fst).map clamp_neg)) ∧
    (∀ x : ℚ, x < 0 → clamp_neg x = 0) ∧
    (∀ x : ℚ, 0 ≤ x → clamp_neg x = x) ∧
    ((∃ z ∈ p, z.1 < -eps) → ∃ e, check_probab p eps = Except.error e) ∧
    ((∃ z ∈ p, eps < |z.2|) → ∃ e, check_probab p eps = Except.error e) ∧
    ((∀ z ∈ p, |z.2| ≤ eps) → (∀ z ∈ p, -eps ≤ z.1) →
      eps < |((p.map Prod.fst).map clamp_neg).sum - 1| →
      ∃ e, check_probab p eps = Except.error e) := by
  refine ⟨?_, ?_, ?_, ?_, ?_, ?_⟩
  · intro him hre hsum
    have hre' : ∀ x ∈ p.map Prod.fst, -eps ≤ x := by
      intro x hx
      obtain ⟨z, hz, rfl⟩ := List.mem_map.mp hx
      exact hre z hz
    unfold check_probab
    rw [if_pos him, if_pos hre', if_pos hsum]
  · intro x hx
    simp [clamp_neg, hx]
  · intro x hx
    simp [clamp_neg, not_lt.mpr hx]
  · rintro ⟨z, hz, hlt⟩
    by_cases him : ∀ w ∈ p, |w.2| ≤ eps
    · have hre' : ¬(∀ x ∈ p.map Prod.fst, -eps ≤ x) := by
        intro hall
        exact absurd (hall z.1 (List.mem_map.mpr ⟨z, hz, rfl⟩)) (not_le.mpr hlt)
      refine ⟨"AssertionError: probability entry below -eps", ?_⟩
      unfold check_probab
      rw [if_pos him, if_neg hre']
    · refine ⟨"AssertionError: imaginary part beyond eps", ?_⟩
      unfold check_probab
      rw [if_neg him]
  · rintro ⟨z, hz, hgt⟩
    have him : ¬(∀ w ∈ p, |w.2| ≤ eps) := by
      intro hall
      exact absurd (hall z hz) (not_le.mpr hgt)
    refine ⟨"AssertionError: imaginary part beyond eps", ?_⟩
    unfold check_probab
    rw [if_neg him]
  · intro him hre hsum
    have hre' : ∀ x ∈ p.map Prod.fst, -eps ≤ x := by
      intro x hx
      obtain ⟨z, hz, rfl⟩ := List.mem_map.mp hx
      exact hre z hz
    refine ⟨"AssertionError: total probability deviates from 1 beyond eps", ?_⟩
    unfold check_probab
    rw [if_pos him, if_pos hre', if_neg (not_le.mpr hsum)]

/-- Witness for `check_probab_spec`: an entry `-1/8` with `eps = 1/8` is
clamped to zero and the checks pass. -/
theorem check_probab_spec_witness :
    check_probab [(3/4, 0), (-1/8, 1/16), (3/8, 0)] (1/8) =
      Except.ok [3/4, 0, 3/8] := by
  have h := (check_probab_spec [(3/4, 0), (-1/8, 1/16), (3/8, 0)] (1/8)).1
    (by norm_num [List.forall_mem_cons, abs_le])
    (by norm_num [List.forall_mem_cons])
    (by norm_num [clamp_neg, abs_le])
  rw [h]
  norm_num [clamp_neg]

/-! ### C2: `MPPovm.probability_map` -/

/-- Splitting a sum over a merged index `m < a * b` into the row-major pair
`(x, y) = (m / b, m % b)`. -/
theorem sum_range_mul_split {M : Type} [AddCommMonoid M] (a b : ℕ) (g : ℕ → M) :
    ∑ m in Finset.range (a * b), g m =
      ∑ x in Finset.range a, ∑ y in Finset.range b, g (x * b + y) := by
  induction a with
  | zero => simp
  | succ a ih =>
      have hsplit : ∑ m in Finset.range (a * b + b), g m =
          (∑ m in Finset.range (a * b), g m) + ∑ m in Finset.Ico (a * b) (a * b + b), g m := by
        rw [← Nat.Ico_zero_eq_range]
        exact (Finset.sum_Ico_consecutive g (Nat.zero_le (a * b)) (Nat.le_add_right (a * b) b)).symm
      have htail : ∑ m in Finset.Ico (a * b) (a * b + b), g m =
          ∑ y in Finset.range b, g (a * b + y) := by
        rw [Finset.sum_Ico_eq_sum_range]
        simp
      rw [Nat.succ_mul, hsplit, htail, ih, Finset.sum_range_succ]

/-- Row-major merge of two per-site index tuples: site `k` of the result is
`xs[k] * ds[k] + ys[k]`. -/
def merge_idx : List ℕ → List ℕ → List ℕ → List ℕ
  | x :: xs, y :: ys, d :: ds => (x * d + y) :: merge_idx xs ys ds
  | _, _, _ => []

theorem merge_split_mod {x y d : ℕ} (hy : y < d) : (x * d + y) % d = y := by
  rw [Nat.mul_comm x d, Nat.mul_add_mod]
  exact Nat.mod_eq_of_lt hy

theorem merge_split_div {x y d : ℕ} (hy : y < d) : (x * d + y) / d = x := by
  have hd : 0 < d := lt_of_le_of_lt (Nat.zero_le y) hy
  rw [Nat.mul_comm x d, Nat.mul_add_div hd, Nat.div_eq_of_lt hy, Nat.add_zero]

theorem merge_idx_mod {xs ys ds : List ℕ} (hx : IdxOk ds xs) (hy : IdxOk ds ys) :
    List.zipWith (fun m d => m % d) (merge_idx xs ys ds) ds = ys := by
  induction ds generalizing xs ys with
  | nil =>
      cases hx
      cases hy
      rfl
  | cons d ds ih =>
      cases hx with
      | cons hxd hxs =>
          cases hy with
          | cons hyd hys =>
              simp only [merge_idx, List.zipWith]
              rw [ih hxs hys, merge_split_mod hyd]

theorem merge_idx_div {xs ys ds : List ℕ} (hx : IdxOk ds xs) (hy : IdxOk ds ys) :
    List.zipWith (fun m d => m / d) (merge_idx xs ys ds) ds = xs := by
  induction ds generalizing xs ys with
  | nil =>
      cases hx
      cases hy
      rfl
  | cons d ds ih =>
      cases hx with
      | cons hxd hxs =>
          cases hy with
          | cons hyd hys =>
              simp only [merge_idx, List.zipWith]
              rw [ih hxs hys, merge_split_div hyd]

/-- Summing a tensor over a merged row-major index equals the double sum over
the two unmerged index tuples. -/
theorem sumOver_merged {M : Type} [AddCommMonoid M] (ds : List ℕ) (f : List ℕ → M) :
    sumOver (ds.map (fun d => d * d)) f =
      sumOver ds (fun xs => sumOver ds (fun ys => f (merge_idx xs ys ds))) := by
  induction ds generalizing f with
  | nil => rfl
  | cons d ds ih =>
      simp only [List.map_cons, sumOver_cons]
      rw [sum_range_mul_split d d (fun m => sumOver (ds.map (fun e => e * e)) (fun ms => f (m :: ms)))]
      refine Finset.sum_congr rfl (fun x _ => ?_)
      calc ∑ y in Finset.range d,
              sumOver (ds.map (fun e => e * e)) (fun ms => f ((x * d + y) :: ms))
          = ∑ y in Finset.range d,
              sumOver ds (fun xs => sumOver ds (fun ys => f ((x * d + y) :: merge_idx xs ys ds))) :=
            Finset.sum_congr rfl (fun y _ => ih (fun ms => f ((x * d + y) :: ms)))
        _ = sumOver ds (fun xs => ∑ y in Finset.range d,
              sumOver ds (fun ys => f ((x * d + y) :: merge_idx xs ys ds))) :=
            (sumOver_finsetSum (Finset.range d) ds _).symm

/-- Embedding of `MPPovm.probability_map`: the measurement chain `T` (global
tensor, per-site legs `(outcome, leg1, leg2)`) is transposed per site to
`(outcome, leg2, leg1)` and the two operator legs are merged row-major into a
single index of size `d * d`, so entry `(os, ms)` of the map is `T` evaluated
at the per-site indices `(os[k], ms[k] % d[k], ms[k] / d[k])`. -/
def probability_map (T : List ℕ → List ℕ → List ℕ → ℂ) (hdims : List ℕ)
    (os ms : List ℕ) : ℂ :=
  T os (List.zipWith (fun m d => m % d) ms hdims) (List.zipWith (fun m d => m / d) ms hdims)

/-- `rho.ravel()` for a density-operator chain: per-site legs `(row, col)`
merged row-major into a single index, so entry `ms` is `rho` at the per-site
indices `(ms[k] / d[k], ms[k] % d[k])`. -/
def mpdo_ravel (rho : List ℕ → List ℕ → ℂ) (hdims : List ℕ) (ms : List ℕ) : ℂ :=
  rho (List.zipWith (fun m d => m / d) ms hdims) (List.zipWith (fun m d => m % d) ms hdims)

/-- Dense semantics of `mp.dot(a_povm.probability_map, rho.ravel())` at outcome
tuple `os`: contract the merged per-site index of the map against the raveled
density operator. -/
noncomputable def probability_map_dot (T : List ℕ → List ℕ → List ℕ → ℂ) (rho : List ℕ → List ℕ → ℂ)
    (hdims : List ℕ) (os : List ℕ) : ℂ :=
  sumOver (hdims.map (fun d => d * d))
    (fun ms => probability_map T hdims os ms * mpdo_ravel rho hdims ms)

/-- The outcome probability of `os`: the multi-site trace of the POVM element
times the density operator, `tr(E[os] · rho) = Σ_{rs, cs} E[os][rs, cs] ·
rho[cs, rs]`, where `E[os][rs, cs] = T os rs cs` under the per-site layout
`(outcome, row, col)` of the claim. -/
noncomputable def outcome_probability (T : List ℕ → List ℕ → List ℕ → ℂ) (rho : List ℕ → List ℕ → ℂ)
    (hdims : List ℕ) (os : List ℕ) : ℂ :=
  sumOver hdims (fun rs => sumOver hdims (fun cs => T os rs cs * rho cs rs))

/-- C2: contracting `probability_map` against the raveled density operator
yields the outcome probabilities `tr(E[os] · rho)`: the per-site transposition
of the two operator legs before the row-major merge makes the merged index of
the map align with the row-major raveling of the density operator. -/
theorem probability_map_dot_eq (T : List ℕ → List ℕ → List ℕ → ℂ)
    (rho : List ℕ → List ℕ → ℂ) (hdims : List ℕ) (os : List ℕ) :
    probability_map_dot T rho hdims os = outcome_probability T rho hdims os := by
  unfold probability_map_dot outcome_probability
  rw [sumOver_merged]
  rw [sumOver_swap]
  refine sumOver_congr (fun rs hrs => ?_)
  refine sumOver_congr (fun cs hcs => ?_)
  unfold probability_map mpdo_ravel
  rw [merge_idx_mod hcs hrs, merge_idx_div hcs hrs]

/-! ### C1, C3: sampling (`MPPovm._sample_cond`, `_sample_cond_single`,
`_sample_direct`, `MPPovm.sample`) -/

/-- Marginal construction of `MPPovm._sample_cond`: `margSum dims p j` is
`marginal_p[dims.length - j]`, obtained from the full distribution `p` by `j`
times summing out the trailing outcome index
(`p = marginal_p[n_sites + 1].sum([()] * n_sites + [(0,)])`). -/
def margSum (dims : List ℕ) (p : List ℕ → ℚ) : ℕ → List ℕ → ℚ
  | 0 => p
  | j + 1 => fun idx =>
      ∑ i in Finset.range (dims.getD (dims.length - (j + 1)) 0), margSum dims p j (idx ++ [i])

/-- `marginal_p[k]` of `MPPovm._sample_cond`: the marginal probability
distribution over outcomes on the first `k` (non-singleton) sites. -/
def marginal_p (dims : List ℕ) (p : List ℕ → ℚ) (k : ℕ) : List ℕ → ℚ :=
  margSum dims p (dims.length - k)

theorem margSum_eq_sumOver (dims : List ℕ) (p : List ℕ → ℚ) :
    ∀ {j : ℕ}, j ≤ dims.length → ∀ idx,
      margSum dims p j idx = sumOver (dims.drop (dims.length - j)) (fun suf => p (idx ++ suf)) := by
  intro j
  induction j with
  | zero =>
      intro _ idx
      simp [margSum, Nat.sub_zero, List.drop_length, sumOver_nil]
  | succ j ih =>
      intro hj idx
      have hj' : j ≤ dims.length := Nat.le_of_succ_le hj
      have hlt : dims.length - (j + 1) < dims.length := by omega
      have harith : dims.length - (j + 1) + 1 = dims.length - j := by omega
      have hgetD : dims.getD (dims.length - (j + 1)) 0 = dims[dims.length - (j + 1)] :=
        List.getD_eq_getElem (l := dims) (d := 0) hlt
      have hdrop : dims.drop (dims.length - (j + 1)) =
          dims[dims.length - (j + 1)] :: dims.drop (dims.length - j) := by
        rw [List.drop_eq_getElem_cons hlt, harith]
      calc margSum dims p (j + 1) idx
          = ∑ i in Finset.range (dims.getD (dims.length - (j + 1)) 0),
              margSum dims p j (idx ++ [i]) := rfl
        _ = ∑ i in Finset.range (dims.getD (dims.length - (j + 1)) 0),
              sumOver (dims.drop (dims.length - j)) (fun suf => p ((idx ++ [i]) ++ suf)) :=
            Finset.sum_congr rfl (fun i _ => ih hj' (idx ++ [i]))
        _ = sumOver (dims.drop (dims.length - (j + 1))) (fun suf => p (idx ++ suf)) := by
            rw [hdrop, hgetD, sumOver_cons]
            refine Finset.sum_congr rfl (fun i _ => ?_)
            refine sumOver_congr (fun suf _ => ?_)
            rw [List.append_assoc, List.singleton_append]

theorem marginal_p_eq_sumOver (dims : List ℕ) (p : List ℕ → ℚ) {k : ℕ}
    (hk : k ≤ dims.length) (idx : List ℕ) :
    marginal_p dims p k idx = sumOver (dims.drop k) (fun suf => p (idx ++ suf)) := by
  unfold marginal_p
  rw [margSum_eq_sumOver dims p (Nat.sub_le _ _) idx]
  have harith : dims.length - (dims.length - k) = k := by omega
  rw [harith]

theorem marginal_p_top (dims : List ℕ) (p : List ℕ → ℚ) (idx : List ℕ) :
    marginal_p dims p dims.length idx = p idx := by
  unfold marginal_p
  rw [Nat.sub_self]
  rfl

theorem IdxOk_length {ds idx : List ℕ} (h : IdxOk ds idx) : idx.length = ds.length :=
  List.Forall₂.length_eq h

theorem IdxOk_append {ds : List ℕ} {k : ℕ} {a b : List ℕ}
    (ha : IdxOk (ds.take k) a) (hb : IdxOk (ds.drop k) b) : IdxOk ds (a ++ b) := by
  have h : List.Forall₂ (fun i d => i < d) (a ++ b) (ds.take k ++ ds.drop k) := by
    simpa using List.rel_append ha hb
  rwa [List.take_append_drop] at h

theorem IdxOk_take_append {ds : List ℕ} {m k : ℕ} (hmk : m ≤ k) {a b : List ℕ}
    (ha : IdxOk (ds.take m) a) (hb : IdxOk ((ds.drop m).take (k - m)) b) :
    IdxOk (ds.take k) (a ++ b) := by
  have h2 := List.take_add ds m (k - m)
  have h3 : m + (k - m) = k := by omega
  rw [h3] at h2
  rw [h2]
  simpa using List.rel_append ha hb

theorem marginal_p_nonneg (dims : List ℕ) (p : List ℕ → ℚ) {k : ℕ} {idx : List ℕ}
    (hk : k ≤ dims.length) (hidx : IdxOk (dims.take k) idx)
    (hp : ∀ j, IdxOk dims j → 0 ≤ p j) : 0 ≤ marginal_p dims p k idx := by
  rw [marginal_p_eq_sumOver dims p hk idx]
  exact sumOver_nonneg (fun suf hsuf => hp (idx ++ suf) (IdxOk_append hidx hsuf))

/-- The marginal on `m` sites is the sum of the marginal on `k ≥ m` sites over
all extensions of the outcome prefix (nesting of the marginal family). -/
theorem marginal_p_group (dims : List ℕ) (p : List ℕ → ℚ) {m k : ℕ}
    (hmk : m ≤ k) (hk : k ≤ dims.length) (idx : List ℕ) :
    marginal_p dims p m idx =
      sumOver ((dims.drop m).take (k - m)) (fun ext => marginal_p dims p k (idx ++ ext)) := by
  rw [marginal_p_eq_sumOver dims p (hmk.trans hk) idx]
  have h1 : (dims.drop m).drop (k - m) = dims.drop k := by
    rw [List.drop_drop]
    have harith : m + (k - m) = k := by omega
    rw [harith]
  have hsplit : dims.drop m = (dims.drop m).take (k - m) ++ dims.drop k := by
    conv_lhs => rw [← List.take_append_drop (k - m) (dims.drop m)]
    rw [h1]
  conv_lhs => rw [hsplit]
  rw [sumOver_append]
  refine sumOver_congr (fun ext _ => ?_)
  rw [marginal_p_eq_sumOver dims p hk (idx ++ ext)]
  refine sumOver_congr (fun suf _ => ?_)
  rw [List.append_assoc]

/-- One entry of the finer marginal is bounded by the coarser marginal at the
corresponding prefix (for nonnegative distributions). -/
theorem marginal_p_le_group (dims : List ℕ) (p : List ℕ → ℚ) {m k : ℕ}
    (hmk : m ≤ k) (hk : k ≤ dims.length) {idx ext : List ℕ}
    (hidx : IdxOk (dims.take m) idx) (hext : IdxOk ((dims.drop m).take (k - m)) ext)
    (hp : ∀ j, IdxOk dims j → 0 ≤ p j) :
    marginal_p dims p k (idx ++ ext) ≤ marginal_p dims p m idx := by
  rw [marginal_p_group dims p hmk hk idx]
  exact single_le_sumOver hext (fun j hj =>
    marginal_p_nonneg dims p hk (IdxOk_take_append hmk hidx hj) hp)

/-- `np.unravel_index` with row-major (C) order: the first coordinate is the
flat index divided by the product of the remaining dimensions. -/
def unravel_index : List ℕ → ℕ → List ℕ
  | [], _ => []
  | _ :: ds, m => (m / ds.prod) :: unravel_index ds (m % ds.prod)

theorem unravel_index_ok {shape : List ℕ} {m : ℕ} (h : m < shape.prod) :
    IdxOk shape (unravel_index shape m) := by
  induction shape generalizing m with
  | nil => exact List.Forall₂.nil
  | cons d ds ih =>
      rw [List.prod_cons] at h
      have hP : 0 < ds.prod := by
        rcases Nat.eq_zero_or_pos ds.prod with h0 | h0
        · rw [h0, Nat.mul_zero] at h
          omega
        · exact h0
      have hdiv : m / ds.prod < d := by
        rw [Nat.div_lt_iff_lt_mul hP]
        exact h
      exact List.Forall₂.cons hdiv (ih (Nat.mod_lt m hP))

theorem clamp_neg_of_nonneg {x : ℚ} (h : 0 ≤ x) : clamp_neg x = x := by
  simp [clamp_neg, not_lt.mpr h]

/-- Running state of `MPPovm._sample_cond_single`: the outcomes sampled so far
(`out[:n_out]`) and the running probability `out_p` of that partial outcome. -/
structure CondState where
  out : List ℕ
  outP : ℚ

/-- Shape of the conditional distribution sampled in one step of
`_sample_cond_single`: the dimensions of the next (at most) `n_group` sites. -/
def condShape (dims : List ℕ) (g : ℕ) (s : CondState) : List ℕ :=
  (dims.drop s.out.length).take (min dims.length (s.out.length + g) - s.out.length)

/-- Conditional weight array of one step of `_sample_cond_single`: the marginal
distribution on `min(n_sites, n_out + n_group)` sites sliced at the sampled
prefix, divided by the running probability `out_p`, negative entries clamped to
zero. -/
def condWeights (dims : List ℕ) (p : List ℕ → ℚ) (g : ℕ) (s : CondState) :
    List ℕ → ℚ :=
  fun ext =>
    clamp_neg (marginal_p dims p (min dims.length (s.out.length + g)) (s.out ++ ext) / s.outP)

/-- The group of site outcomes drawn in one step: the rng returns a flat index
into the conditional weight array (`rng.choice(p.size, p=p.flat)`), which is
unraveled row-major into per-site outcomes. -/
def condExt (dims : List ℕ) (p : List ℕ → ℚ) (g : ℕ)
    (choose : List ℕ → (List ℕ → ℚ) → ℕ) (s : CondState) : List ℕ :=
  unravel_index (condShape dims g s)
    (choose (condShape dims g s) (condWeights dims p g s))

/-- One loop iteration of `_sample_cond_single`: append the drawn group of
outcomes to `out` and multiply the drawn conditional mass into `out_p`
(`out_p *= np.prod(p.flat[choice])`). -/
def cond_step (dims : List ℕ) (p : List ℕ → ℚ) (g : ℕ)
    (choose : List ℕ → (List ℕ → ℚ) → ℕ) (s : CondState) : CondState :=
  CondState.mk (s.out ++ condExt dims p g choose s)
    (s.outP * condWeights dims p g s (condExt dims p g choose s))

/-- The `for n_out in range(0, n_sites, n_group)` loop of
`_sample_cond_single`, with explicit fuel (the loop runs while fewer than
`n_sites` outcomes have been produced). -/
def cond_loop (dims : List ℕ) (p : List ℕ → ℚ) (g : ℕ)
    (choose : List ℕ → (List ℕ → ℚ) → ℕ) : ℕ → CondState → CondState
  | 0, s => s
  | fuel + 1, s =>
      if s.out.length < dims.length then
        cond_loop dims p g choose fuel (cond_step dims p g choose s)
      else s

/-- `MPPovm._sample_cond_single`: starting from the empty outcome with unit
probability, sample `n_group` sites at a time until all sites are sampled. -/
def sample_cond_single (dims : List ℕ) (p : List ℕ → ℚ) (g : ℕ)
    (choose : List ℕ → (List ℕ → ℚ) → ℕ) : CondState :=
  cond_loop dims p g choose dims.length (CondState.mk [] 1)

theorem condExt_ok (dims : List ℕ) (p : List ℕ → ℚ) (g : ℕ)
    (choose : List ℕ → (List ℕ → ℚ) → ℕ)
    (hd : ∀ d ∈ dims, 0 < d)
    (hchoose : ∀ shape w, 0 < shape.prod → choose shape w < shape.prod)
    (s : CondState) : IdxOk (condShape dims g s) (condExt dims p g choose s) := by
  apply unravel_index_ok
  apply hchoose
  apply List.prod_pos
  intro d hdm
  exact hd d (List.mem_of_mem_drop (List.mem_of_mem_take hdm))

theorem condShape_length (dims : List ℕ) (g : ℕ) (s : CondState)
    (hlen : s.out.length ≤ dims.length) :
    (condShape dims g s).length = min dims.length (s.out.length + g) - s.out.length := by
  unfold condShape
  rw [List.length_take, List.length_drop]
  omega

/-- After one group step the sampled prefix covers `min(n_sites, n_out + n_group)`
sites and remains a valid outcome tuple. -/
theorem cond_step_len_ok (dims : List ℕ) (p : List ℕ → ℚ) (g : ℕ)
    (choose : List ℕ → (List ℕ → ℚ) → ℕ)
    (hd : ∀ d ∈ dims, 0 < d)
    (hchoose : ∀ shape w, 0 < shape.prod → choose shape w < shape.prod)
    (s : CondState)
    (hle : s.out.length ≤ dims.length)
    (hok : IdxOk (dims.take s.out.length) s.out) :
    (cond_step dims p g choose s).out.length = min dims.length (s.out.length + g) ∧
    IdxOk (dims.take (min dims.length (s.out.length + g)))
      (cond_step dims p g choose s).out := by
  have hext := condExt_ok dims p g choose hd hchoose s
  have hextlen : (condExt dims p g choose s).length = (condShape dims g s).length :=
    IdxOk_length hext
  have hshapelen := condShape_length dims g s hle
  constructor
  · show (s.out ++ condExt dims p g choose s).length = _
    rw [List.length_append, hextlen, hshapelen]
    omega
  · show IdxOk _ (s.out ++ condExt dims p g choose s)
    exact IdxOk_take_append (by omega) hok hext

/-- After one group step the running probability `out_p` equals the marginal
probability of the sampled prefix (telescoping of the drawn conditional
masses), and the prefix is nonempty. -/
theorem cond_step_outP (dims : List ℕ) (p : List ℕ → ℚ) (g : ℕ)
    (choose : List ℕ → (List ℕ → ℚ) → ℕ)
    (hd : ∀ d ∈ dims, 0 < d)
    (hg : 1 ≤ g)
    (hchoose : ∀ shape w, 0 < shape.prod → choose shape w < shape.prod)
    (hp : ∀ j, IdxOk dims j → 0 ≤ p j)
    (s : CondState)
    (hlt : s.out.length < dims.length)
    (hok : IdxOk (dims.take s.out.length) s.out)
    (hinv : (s.out = [] ∧ s.outP = 1) ∨
      (s.out ≠ [] ∧ s.outP = marginal_p dims p s.out.length s.out)) :
    (cond_step dims p g choose s).out ≠ [] ∧
    (cond_step dims p g choose s).outP =
      marginal_p dims p (cond_step dims p g choose s).out.length
        (cond_step dims p g choose s).out := by
  have hext := condExt_ok dims p g choose hd hchoose s
  have hextlen : (condExt dims p g choose s).length = (condShape dims g s).length :=
    IdxOk_length hext
  have hshapelen := condShape_length dims g s (Nat.le_of_lt hlt)
  have hlen := (cond_step_len_ok dims p g choose hd hchoose s (Nat.le_of_lt hlt) hok).1
  have hnewpos : 0 < (cond_step dims p g choose s).out.length := by
    rw [hlen]
    omega
  have hne : (cond_step dims p g choose s).out ≠ [] := by
    intro h0
    rw [h0] at hnewpos
    exact absurd hnewpos (by simp)
  refine ⟨hne, ?_⟩
  have hmk : s.out.length ≤ min dims.length (s.out.length + g) := by omega
  have hk : min dims.length (s.out.length + g) ≤ dims.length := by omega
  have hvalid : IdxOk (dims.take (min dims.length (s.out.length + g)))
      (s.out ++ condExt dims p g choose s) := IdxOk_take_append hmk hok hext
  have hmargnn : 0 ≤ marginal_p dims p (min dims.length (s.out.length + g))
      (s.out ++ condExt dims p g choose s) := marginal_p_nonneg dims p hk hvalid hp
  have hout : (cond_step dims p g choose s).out = s.out ++ condExt dims p g choose s := rfl
  have hgoal : (cond_step dims p g choose s).outP =
      s.outP * clamp_neg (marginal_p dims p (min dims.length (s.out.length + g))
        (s.out ++ condExt dims p g choose s) / s.outP) := rfl
  rw [hgoal, hout]
  have hlen' : (s.out ++ condExt dims p g choose s).length =
      min dims.length (s.out.length + g) := by
    rw [← hout]
    exact hlen
  rw [hlen']
  rcases hinv with ⟨hnil, hP1⟩ | ⟨hnenil, hPm⟩
  · rw [hP1, div_one, clamp_neg_of_nonneg hmargnn, one_mul]
  · rw [hPm]
    have houtPnn : 0 ≤ marginal_p dims p s.out.length s.out :=
      marginal_p_nonneg dims p (Nat.le_of_lt hlt) hok hp
    have hext' : IdxOk ((dims.drop s.out.length).take
        (min dims.length (s.out.length + g) - s.out.length)) (condExt dims p g choose s) := hext
    rcases eq_or_lt_of_le houtPnn with hP0 | hPpos
    · have hle2 := marginal_p_le_group dims p hmk hk hok hext' hp
      rw [← hP0] at hle2
      have hz : marginal_p dims p (min dims.length (s.out.length + g))
          (s.out ++ condExt dims p g choose s) = 0 := le_antisymm hle2 hmargnn
      rw [← hP0, hz]
      simp [clamp_neg]
    · have hPne : marginal_p dims p s.out.length s.out ≠ 0 := ne_of_gt hPpos
      have hratio : 0 ≤ marginal_p dims p (min dims.length (s.out.length + g))
          (s.out ++ condExt dims p g choose s) / marginal_p dims p s.out.length s.out :=
        div_nonneg hmargnn (le_of_lt hPpos)
      rw [clamp_neg_of_nonneg hratio, mul_comm, div_mul_cancel₀ _ hPne]

/-- The sampling loop terminates with all sites sampled and a valid outcome
tuple (each entry below the site's outcome dimension). -/
theorem cond_loop_len_ok (dims : List ℕ) (p : List ℕ → ℚ) (g : ℕ)
    (choose : List ℕ → (List ℕ → ℚ) → ℕ)
    (hd : ∀ d ∈ dims, 0 < d)
    (hg : 1 ≤ g)
    (hchoose : ∀ shape w, 0 < shape.prod → choose shape w < shape.prod) :
    ∀ (fuel : ℕ) (s : CondState),
      s.out.length ≤ dims.length →
      IdxOk (dims.take s.out.length) s.out →
      dims.length - s.out.length ≤ fuel →
      (cond_loop dims p g choose fuel s).out.length = dims.length ∧
        IdxOk dims (cond_loop dims p g choose fuel s).out := by
  intro fuel
  induction fuel with
  | zero =>
      intro s hle hok hfuel
      have hlen : s.out.length = dims.length := by omega
      have hdims : dims.take s.out.length = dims := by
        rw [hlen, List.take_length]
      rw [hdims] at hok
      exact ⟨hlen, hok⟩
  | succ fuel ih =>
      intro s hle hok hfuel
      simp only [cond_loop]
      by_cases hlt : s.out.length < dims.length
      · rw [if_pos hlt]
        have hstep := cond_step_len_ok dims p g choose hd hchoose s hle hok
        have h1 : (cond_step dims p g choose s).out.length ≤ dims.length := by
          rw [hstep.1]
          omega
        have h2 : dims.length - (cond_step dims p g choose s).out.length ≤ fuel := by
          rw [hstep.1]
          omega
        have h3 : IdxOk (dims.take (cond_step dims p g choose s).out.length)
            (cond_step dims p g choose s).out := by
          rw [hstep.1]
          exact hstep.2
        exact ih (cond_step dims p g choose s) h1 h3 h2
      · rw [if_neg hlt]
        have hlen : s.out.length = dims.length := by omega
        have hdims : dims.take s.out.length = dims := by
          rw [hlen, List.take_length]
        rw [hdims] at hok
        exact ⟨hlen, hok⟩

/-- Telescoping invariant of the sampling loop: after at least one step, the
running probability `out_p` equals the marginal probability of the sampled
prefix. -/
theorem cond_loop_outP (dims : List ℕ) (p : List ℕ → ℚ) (g : ℕ)
    (choose : List ℕ → (List ℕ → ℚ) → ℕ)
    (hd : ∀ d ∈ dims, 0 < d)
    (hg : 1 ≤ g)
    (hchoose : ∀ shape w, 0 < shape.prod → choose shape w < shape.prod)
    (hp : ∀ j, IdxOk dims j → 0 ≤ p j) :
    ∀ (fuel : ℕ) (s : CondState),
      s.out.length ≤ dims.length →
      IdxOk (dims.take s.out.length) s.out →
      ((s.out = [] ∧ s.outP = 1) ∨
        (s.out ≠ [] ∧ s.outP = marginal_p dims p s.out.length s.out)) →
      (((cond_loop dims p g choose fuel s).out = [] ∧
          (cond_loop dims p g choose fuel s).outP = 1) ∨
        ((cond_loop dims p g choose fuel s).out ≠ [] ∧
          (cond_loop dims p g choose fuel s).outP =
            marginal_p dims p (cond_loop dims p g choose fuel s).out.length
              (cond_loop dims p g choose fuel s).out)) := by
  intro fuel
  induction fuel with
  | zero =>
      intro s _ _ hinv
      exact hinv
  | succ fuel ih =>
      intro s hle hok hinv
      simp only [cond_loop]
      by_cases hlt : s.out.length < dims.length
      · rw [if_pos hlt]
        have hstep := cond_step_len_ok dims p g choose hd hchoose s (Nat.le_of_lt hlt) hok
        have hstepP := cond_step_outP dims p g choose hd hg hchoose hp s hlt hok hinv
        have h1 : (cond_step dims p g choose s).out.length ≤ dims.length := by
          rw [hstep.1]
          omega
        have h3 : IdxOk (dims.take (cond_step dims p g choose s).out.length)
            (cond_step dims p g choose s).out := by
          rw [hstep.1]
          exact hstep.2
        exact ih (cond_step dims p g choose s) h1 h3 (Or.inr hstepP)
      · rw [if_neg hlt]
        exact hinv

/-- C1: the marginal family of `MPPovm._sample_cond`, built by successively
summing out the trailing outcome index, has `marginal_p[0]` within `eps` of 1
whenever the probability chain is normalized within `eps`; and for every
sample drawn from a nonnegative probability chain normalized within `eps`, the
running product `out_p` of the drawn conditional masses equals the full joint
distribution at the drawn outcome within `eps`, so the fatal consistency
assertion `abs(p - out_p) <= eps` at the end of `_sample_cond_single` never
fires.  The rng is an oracle returning a flat index into each conditional
weight array (in-range whenever the array is nonempty). -/
theorem sample_cond_consistency (dims : List ℕ) (p : List ℕ → ℚ) (g : ℕ)
    (choose : List ℕ → (List ℕ → ℚ) → ℕ) (eps : ℚ)
    (hd : ∀ d ∈ dims, 0 < d)
    (hp : ∀ idx, IdxOk dims idx → 0 ≤ p idx)
    (hsum : |sumOver dims p - 1| ≤ eps)
    (heps : 0 ≤ eps)
    (hg : 1 ≤ g)
    (hchoose : ∀ shape w, 0 < shape.prod → choose shape w < shape.prod) :
    |marginal_p dims p 0 [] - 1| ≤ eps ∧
    |marginal_p dims p dims.length (sample_cond_single dims p g choose).out -
        (sample_cond_single dims p g choose).outP| ≤ eps := by
  have hm0 : marginal_p dims p 0 [] = sumOver dims p := by
    rw [marginal_p_eq_sumOver dims p (Nat.zero_le _) []]
    rw [List.drop_zero]
    exact sumOver_congr (fun idx _ => by rw [List.nil_append])
  refine ⟨by rw [hm0]; exact hsum, ?_⟩
  have hok0 : IdxOk (dims.take (0 : ℕ)) ([] : List ℕ) := by
    rw [List.take_zero]
    exact List.Forall₂.nil
  have hlen := cond_loop_len_ok dims p g choose hd hg hchoose dims.length
    (CondState.mk [] 1) (Nat.zero_le _) hok0 (by omega)
  have hP := cond_loop_outP dims p g choose hd hg hchoose hp dims.length
    (CondState.mk [] 1) (Nat.zero_le _) hok0 (Or.inl ⟨rfl, rfl⟩)
  have hs : sample_cond_single dims p g choose =
      cond_loop dims p g choose dims.length (CondState.mk [] 1) := rfl
  rw [hs]
  rcases hP with ⟨hnil, hP1⟩ | ⟨hne, hPm⟩
  · have hn0 : dims.length = 0 := by
      have := hlen.1
      rw [hnil] at this
      simpa using this.symm
    have hdimsnil : dims = [] := List.length_eq_zero.mp hn0
    rw [hP1, hnil, hn0, hm0]
    exact hsum
  · rw [hPm, hlen.1, sub_self, abs_zero]
    exact heps

/-- Witness for `sample_cond_consistency`: one site with a single outcome of
probability 1, sampled with the oracle that always returns flat index 0. -/
theorem sample_cond_consistency_witness :
    |marginal_p [1] (fun idx => if idx = [0] then (1 : ℚ) else 0) 0 [] - 1| ≤ 0 ∧
    |marginal_p [1] (fun idx => if idx = [0] then (1 : ℚ) else 0) (List.length [1])
        (sample_cond_single [1] (fun idx => if idx = [0] then (1 : ℚ) else 0) 1
          (fun _ _ => 0)).out -
      (sample_cond_single [1] (fun idx => if idx = [0] then (1 : ℚ) else 0) 1
        (fun _ _ => 0)).outP| ≤ 0 := by
  apply sample_cond_consistency
  · intro d hdm
    have : d = 1 := by simpa using hdm
    omega
  · intro idx _
    by_cases h : idx = [0] <;> simp [h]
  · have : sumOver [1] (fun idx => if idx = [0] then (1 : ℚ) else 0) = 1 := by
      simp [sumOver_cons, sumOver_nil, Finset.sum_range_one]
    rw [this]
    norm_num
  · exact le_refl 0
  · exact le_refl 1
  · intro shape w hprod
    exact hprod

/-- `MPPovm.nsoutdims`: the outcome dimensions larger than one (the sites that
carry information; `sample` works on the probability chain pruned to these). -/
def nsoutdims (outdims : List ℕ) : List ℕ := outdims.filter (fun d => 1 < d)

/-- One sample row produced by the conditional method, including the `0xFF`
("data missing") sentinel fill of the output buffer: positions not written by
the sampling loop keep the sentinel. -/
def sample_cond_row (dims : List ℕ) (p : List ℕ → ℚ) (g : ℕ)
    (choose : List ℕ → (List ℕ → ℚ) → ℕ) : List ℕ :=
  (sample_cond_single dims p g choose).out ++
    List.replicate (dims.length - (sample_cond_single dims p g choose).out.length) 255

/-- The two sampling strategies of `MPPovm.sample`. -/
inductive SampleMethod | cond | direct

/-- The sample batch of `MPPovm.sample` restricted to the non-singleton
outcome sites: row `i` is produced either by conditional sampling (rng oracle
`chooseC i`) or by direct sampling, where the rng returns a flat index
`chooseD i` into the full joint distribution which is unraveled row-major
(`np.unravel_index(choices, probab.shape)`). -/
def sample_rows (method : SampleMethod) (dims : List ℕ) (p : List ℕ → ℚ) (g : ℕ)
    (chooseC : ℕ → List ℕ → (List ℕ → ℚ) → ℕ) (chooseD : ℕ → ℕ) (nSamples : ℕ) :
    List (List ℕ) :=
  (List.range nSamples).map (fun i =>
    match method with
    | SampleMethod.cond => sample_cond_row dims p g (chooseC i)
    | SampleMethod.direct => unravel_index dims (chooseD i))

/-- A valid outcome tuple for dimensions that are at most 255 never contains
the sentinel value 255. -/
theorem IdxOk_no_sentinel : ∀ {ds row : List ℕ}, IdxOk ds row →
    (∀ d ∈ ds, d ≤ 255) → 255 ∉ row := by
  intro ds row h
  induction h with
  | nil =>
      intro _
      simp
  | @cons i d idx es hi hrest ih =>
      intro h255 hmem
      rcases List.mem_cons.mp hmem with h1 | h2
      · have hd : d ≤ 255 := h255 d (List.mem_cons_self d es)
        omega
      · exact ih (fun e he => h255 e (List.mem_cons_of_mem d he)) h2

/-- C3: for a POVM whose outcome dimensions are all at most 255, `sample`
returns `n_samples` rows over the non-singleton outcome sites, every entry
`[i, j]` lies in `[0, outcome_dimension_j)`, and the unfilled sentinel `0xFF`
never appears in the result — for both the conditional and the direct method. -/
theorem sample_rows_spec (method : SampleMethod) (outdims : List ℕ) (p : List ℕ → ℚ)
    (g : ℕ) (chooseC : ℕ → List ℕ → (List ℕ → ℚ) → ℕ) (chooseD : ℕ → ℕ) (nSamples : ℕ)
    (h255 : ∀ d ∈ outdims, d ≤ 255)
    (hg : 1 ≤ g)
    (hchooseC : ∀ i shape w, 0 < shape.prod → chooseC i shape w < shape.prod)
    (hchooseD : ∀ i, chooseD i < (nsoutdims outdims).prod) :
    (sample_rows method (nsoutdims outdims) p g chooseC chooseD nSamples).length = nSamples ∧
    ∀ row ∈ sample_rows method (nsoutdims outdims) p g chooseC chooseD nSamples,
      row.length = (nsoutdims outdims).length ∧ IdxOk (nsoutdims outdims) row ∧
        255 ∉ row := by
  have hd : ∀ d ∈ nsoutdims outdims, 0 < d := by
    intro d hdm
    have h1 : 1 < d := by
      have := List.of_mem_filter hdm
      simpa using this
    omega
  have h255' : ∀ d ∈ nsoutdims outdims, d ≤ 255 :=
    fun d hdm => h255 d (List.mem_of_mem_filter hdm)
  constructor
  · simp [sample_rows]
  · intro row hrow
    simp only [sample_rows, List.mem_map, List.mem_range] at hrow
    obtain ⟨i, _, hrow⟩ := hrow
    have hmain : IdxOk (nsoutdims outdims) row := by
      cases method with
      | cond =>
          have hrow' : sample_cond_row (nsoutdims outdims) p g (chooseC i) = row := hrow
          have hok0 : IdxOk ((nsoutdims outdims).take (0 : ℕ)) ([] : List ℕ) := by
            rw [List.take_zero]
            exact List.Forall₂.nil
          have hloop := cond_loop_len_ok (nsoutdims outdims) p g (chooseC i) hd hg
            (hchooseC i) (nsoutdims outdims).length (CondState.mk [] 1)
            (Nat.zero_le _) hok0 (by omega)
          have hrep : sample_cond_row (nsoutdims outdims) p g (chooseC i) =
              (sample_cond_single (nsoutdims outdims) p g (chooseC i)).out := by
            unfold sample_cond_row
            have hz : (nsoutdims outdims).length -
                (sample_cond_single (nsoutdims outdims) p g (chooseC i)).out.length = 0 := by
              have := hloop.1
              unfold sample_cond_single
              omega
            rw [hz, List.replicate_zero, List.append_nil]
          rw [← hrow', hrep]
          exact hloop.2
      | direct =>
          have hrow' : unravel_index (nsoutdims outdims) (chooseD i) = row := hrow
          rw [← hrow']
          exact unravel_index_ok (hchooseD i)
    refine ⟨IdxOk_length hmain, hmain, IdxOk_no_sentinel hmain h255'⟩

/-- Witness for `sample_rows_spec`: direct sampling of one row from a POVM
with outcome dimensions `[1, 2]` (one singleton site). -/
theorem sample_rows_spec_witness :
    (sample_rows SampleMethod.direct (nsoutdims [1, 2]) (fun _ => (0 : ℚ)) 1
        (fun _ _ _ => 0) (fun _ => 1) 1).length = 1 ∧
    ∀ row ∈ sample_rows SampleMethod.direct (nsoutdims [1, 2]) (fun _ => (0 : ℚ)) 1
        (fun _ _ _ => 0) (fun _ => 1) 1,
      row.length = (nsoutdims [1, 2]).length ∧ IdxOk (nsoutdims [1, 2]) row ∧
        255 ∉ row :=
  sample_rows_spec SampleMethod.direct [1, 2] (fun _ => (0 : ℚ)) 1
    (fun _ _ _ => 0) (fun _ => 1) 1 (by decide) (le_refl 1)
    (fun i shape w h => h)
    (by
      intro i
      show (1 : ℕ) < (nsoutdims [1, 2]).prod
      decide)

/-! ### C10: site-count guards of `MPPovm.sample` and `MPPovm.expectations` -/

/-- Window structure of `MPPovm.expectations`: after the `assert
len(self) <= len(mpa)`, one probability chain is produced per contiguous
window of `povmLen` sites, for window start positions `0 .. stateLen -
povmLen`, in increasing order (the per-window reduced states are supplied by
the `mpnum.mpsmpo` reduction collaborator, represented by the abstract
`window` function). -/
def expectations_iter {α : Type} (povmLen stateLen : ℕ) (window : ℕ → α) :
    Except String (List α) :=
  if povmLen ≤ stateLen then
    Except.ok ((List.range (stateLen - povmLen + 1)).map window)
  else Except.error "AssertionError: len(self) <= len(mpa)"

/-- Top-level control flow of `MPPovm.sample`: assert `len(self) ==
len(state)`, take the first probability chain from `expectations`
(`probab = next(self.expectations(state, mode))`), and hand it to the
method-specific sampler `run`. -/
def sample_sites {α β : Type} (povmLen stateLen : ℕ) (window : ℕ → α)
    (run : α → β) : Except String β :=
  if povmLen = stateLen then
    match expectations_iter povmLen stateLen window with
    | Except.ok ws =>
        match ws.head? with
        | some w => Except.ok (run w)
        | none => Except.error "StopIteration"
    | Except.error e => Except.error e
  else Except.error "AssertionError: len(self) == len(state)"

/-- C10: `sample` fails with a fatal assertion whenever the state's site count
differs from the POVM's, while `expectations` accepts any state with at least
as many sites as the POVM; when sampling does run, only the first window's
probability chain (window start 0) is ever used. -/
theorem sample_sites_spec {α β : Type} (povmLen stateLen : ℕ) (window : ℕ → α)
    (run : α → β) :
    (povmLen ≠ stateLen →
      sample_sites povmLen stateLen window run =
        Except.error "AssertionError: len(self) == len(state)") ∧
    (povmLen = stateLen →
      sample_sites povmLen stateLen window run = Except.ok (run (window 0))) ∧
    (povmLen ≤ stateLen →
      expectations_iter povmLen stateLen window =
        Except.ok ((List.range (stateLen - povmLen + 1)).map window)) := by
  refine ⟨?_, ?_, ?_⟩
  · intro hne
    unfold sample_sites
    rw [if_neg hne]
  · intro heq
    subst heq
    unfold sample_sites expectations_iter
    rw [if_pos rfl, if_pos (le_refl povmLen), Nat.sub_self]
    rfl
  · intro hle
    unfold expectations_iter
    rw [if_pos hle]

/-- Witness for `sample_sites_spec`: a 2-site POVM on a 3-site state is
rejected by `sample` but accepted by `expectations` (two windows). -/
theorem sample_sites_spec_witness :
    sample_sites 2 3 (fun i => i) (fun w => w) =
      Except.error "AssertionError: len(self) == len(state)" ∧
    expectations_iter 2 3 (fun i => i) = Except.ok [0, 1] := by
  constructor
  · exact (sample_sites_spec 2 3 (fun i => i) (fun w => w)).1 (by decide)
  · have h := (sample_sites_spec 2 3 (fun i => i) (fun w => (w : ℕ))).2.2 (by omega)
    rw [h]
    rfl

/-! ### C9: SVD compression exactness

Modelled from the spec: the CompressionEngine (`mpnum/mparray.py`,
`MPArray.compress`) is not part of the sources; only its regression test
`test_compression_svd` is.  Per the spec, dense SVD kernels are an external
linear-algebra collaborator, so a bond cut is represented by the collaborator's
output: the singular values (descending) paired with rank-one tensors, and the
dense tensor at that cut is their weighted sum. -/

/-- Modelled from the spec: one bond cut of a chain as delivered by the SVD
collaborator — singular values in descending order and the matching rank-one
tensors in a real vector space `M`. -/
structure CutDecomp (M : Type) where
  sigma : List ℝ
  tens : List M

/-- The dense tensor represented at a cut: the singular-value-weighted sum of
the rank-one tensors. -/
def CutDecomp.dense {M : Type} [AddCommMonoid M] [SMul ℝ M] (c : CutDecomp M) : M :=
  (List.zipWith (fun s t => s • t) c.sigma c.tens).sum

/-- Modelled from the spec: truncating one cut to at most `maxBdim` singular
directions keeps the leading (largest) values. -/
def truncate_cut {M : Type} (maxBdim : ℕ) (c : CutDecomp M) : CutDecomp M :=
  CutDecomp.mk (c.sigma.take maxBdim) (c.tens.take maxBdim)

/-- Modelled from the spec: the discarded weight of one cut is the sum of the
squares of the dropped singular values. -/
def cut_err {M : Type} (maxBdim : ℕ) (c : CutDecomp M) : ℝ :=
  ((c.sigma.drop maxBdim).map (fun s => s ^ 2)).sum

/-- Sweep direction of `MPArray.compress`. -/
inductive SweepDirection | left | right

/-- Modelled from the spec: a chain, for compression purposes, is its site
count, the SVD data of every bond cut, and the canonical-form marker
`normal_form`. -/
structure SpecChain (M : Type) where
  sites : ℕ
  cuts : List (CutDecomp M)
  marker : ℕ × ℕ

/-- Modelled from the spec: `compress(max_bdim=b, method='svd', direction)`
truncates every cut to at most `max_bdim` singular directions, returns the
total discarded weight, and leaves the chain canonical matching the swept
direction (`normal_form == (nr_sites - 1, nr_sites)` after a right sweep and
`(0, 1)` after a left sweep, as asserted by `test_compression_svd`). -/
def compress {M : Type} (dir : SweepDirection) (maxBdim : ℕ) (c : SpecChain M) :
    SpecChain M × ℝ :=
  (SpecChain.mk c.sites (c.cuts.map (truncate_cut maxBdim))
    (match dir with
     | SweepDirection.right => (c.sites - 1, c.sites)
     | SweepDirection.left => (0, 1)),
   (c.cuts.map (cut_err maxBdim)).sum)

/-- Modelled from the spec/test: adding `factory.zero_mpa(..., bdim=extra)`
leaves the dense tensor unchanged while every bond dimension grows by
`extra`: each cut gains `extra` vanishing singular directions, in trailing
position since the spectrum stays descending. -/
def add_zero_chain {M : Type} [AddCommMonoid M] (extra : ℕ) (c : SpecChain M) :
    SpecChain M :=
  SpecChain.mk c.sites
    (c.cuts.map (fun cut => CutDecomp.mk (cut.sigma ++ List.replicate extra 0)
      (cut.tens ++ List.replicate extra (0 : M))))
    c.marker

theorem add_zero_dense {M : Type} [AddCommMonoid M] [Module ℝ M] (extra : ℕ)
    (cut : CutDecomp M) (hlen : cut.sigma.length = cut.tens.length) :
    (CutDecomp.mk (cut.sigma ++ List.replicate extra 0)
      (cut.tens ++ List.replicate extra (0 : M))).dense = cut.dense := by
  unfold CutDecomp.dense
  rw [List.zipWith_append _ _ _ _ _ hlen, List.sum_append]
  have hz : List.zipWith (fun (s : ℝ) (t : M) => s • t)
      (List.replicate extra 0) (List.replicate extra 0) = List.replicate extra 0 := by
    induction extra with
    | zero => rfl
    | succ k ih => simp [List.replicate_succ, ih]
  rw [hz, List.sum_replicate, smul_zero, add_zero]

/-- C9 (spec-modelled): a chain that is the sum of a chain of bond dimension
`b` and a zero chain, compressed with `max_bdim = b` in either sweep
direction, has discarded weight exactly 0, bond dimension exactly `b` at every
cut (not larger), the same dense tensor as the original chain at every cut,
and the canonical-form marker matching the swept direction. -/
theorem compress_sum_zero_exact {M : Type} [AddCommMonoid M] [Module ℝ M]
    (dir : SweepDirection) (b : ℕ) (c : SpecChain M)
    (hb : ∀ cut ∈ c.cuts, cut.sigma.length = b ∧ cut.tens.length = b) :
    (compress dir b (add_zero_chain b c)).2 = 0 ∧
    (compress dir b (add_zero_chain b c)).1.cuts = c.cuts ∧
    (∀ cut ∈ (compress dir b (add_zero_chain b c)).1.cuts, cut.sigma.length = b) ∧
    ((compress dir b (add_zero_chain b c)).1.cuts.map CutDecomp.dense =
      c.cuts.map CutDecomp.dense) ∧
    ((add_zero_chain b c).cuts.map CutDecomp.dense = c.cuts.map CutDecomp.dense) ∧
    (compress dir b (add_zero_chain b c)).1.marker =
      (match dir with
       | SweepDirection.right => (c.sites - 1, c.sites)
       | SweepDirection.left => (0, 1)) := by
  have hcut : ∀ cut ∈ c.cuts,
      truncate_cut b (CutDecomp.mk (cut.sigma ++ List.replicate b 0)
        (cut.tens ++ List.replicate b (0 : M))) = cut := by
    intro cut hcutm
    obtain ⟨hs, ht⟩ := hb cut hcutm
    unfold truncate_cut
    have h1 : (cut.sigma ++ List.replicate b (0 : ℝ)).take b = cut.sigma := by
      rw [← hs]
      exact List.take_left cut.sigma _
    have h2 : (cut.tens ++ List.replicate b (0 : M)).take b = cut.tens := by
      rw [← ht]
      exact List.take_left cut.tens _
    rw [h1, h2]
  have hcuts : (compress dir b (add_zero_chain b c)).1.cuts = c.cuts := by
    show ((c.cuts.map (fun cut => CutDecomp.mk (cut.sigma ++ List.replicate b 0)
        (cut.tens ++ List.replicate b (0 : M)))).map (truncate_cut b)) = c.cuts
    rw [List.map_map]
    have hid : ∀ cut ∈ c.cuts,
        (truncate_cut b ∘ fun cut => CutDecomp.mk (cut.sigma ++ List.replicate b 0)
          (cut.tens ++ List.replicate b (0 : M))) cut = id cut := by
      intro cut hm
      simpa using hcut cut hm
    rw [List.map_congr_left hid, List.map_id]
  have herr : (compress dir b (add_zero_chain b c)).2 = 0 := by
    show ((c.cuts.map (fun cut => CutDecomp.mk (cut.sigma ++ List.replicate b 0)
        (cut.tens ++ List.replicate b (0 : M)))).map (cut_err b)).sum = 0
    rw [List.map_map]
    have hz : ∀ cut ∈ c.cuts,
        (cut_err b ∘ fun cut => CutDecomp.mk (cut.sigma ++ List.replicate b 0)
          (cut.tens ++ List.replicate b (0 : M))) cut = (fun _ => (0 : ℝ)) cut := by
      intro cut hm
      obtain ⟨hs, _⟩ := hb cut hm
      have hd : (cut.sigma ++ List.replicate b (0 : ℝ)).drop b = List.replicate b 0 := by
        rw [← hs]
        exact List.drop_left cut.sigma _
      show (((cut.sigma ++ List.replicate b (0 : ℝ)).drop b).map (fun s => s ^ 2)).sum = 0
      rw [hd, List.map_replicate]
      norm_num [List.sum_replicate]
    rw [List.map_congr_left hz]
    simp
  have hdense : ((add_zero_chain b c).cuts.map CutDecomp.dense =
      c.cuts.map CutDecomp.dense) := by
    show ((c.cuts.map (fun cut => CutDecomp.mk (cut.sigma ++ List.replicate b 0)
        (cut.tens ++ List.replicate b (0 : M)))).map CutDecomp.dense) =
      c.cuts.map CutDecomp.dense
    rw [List.map_map]
    refine List.map_congr_left (fun cut hm => ?_)
    obtain ⟨hs, ht⟩ := hb cut hm
    show (CutDecomp.mk (cut.sigma ++ List.replicate b 0)
      (cut.tens ++ List.replicate b (0 : M))).dense = cut.dense
    exact add_zero_dense b cut (hs.trans ht.symm)
  refine ⟨herr, hcuts, ?_, ?_, hdense, ?_⟩
  · intro cut hm
    rw [hcuts] at hm
    exact (hb cut hm).1
  · rw [hcuts]
  · cases dir <;> rfl

/-- Witness for `compress_sum_zero_exact`: a two-site chain with a single bond
cut of bond dimension 1, summed with a zero chain and compressed back. -/
theorem compress_sum_zero_exact_witness :
    (compress SweepDirection.right 1 (add_zero_chain 1
        (SpecChain.mk 2 [CutDecomp.mk [1] [(1 : ℝ)]] (0, 2)))).2 = 0 :=
  (compress_sum_zero_exact SweepDirection.right 1
    (SpecChain.mk 2 [CutDecomp.mk [1] [(1 : ℝ)]] (0, 2))
    (by
      intro cut hm
      rw [List.mem_singleton] at hm
      subst hm
      exact ⟨rfl, rfl⟩)).1

/-! ### C5, C6: `MPPovm.find_matching_elements` -/

/-- A POVM chain in dense-global form: per-site outcome dimensions, Hilbert
space dimensions, and the global tensor with per-site legs
`(outcome, row, col)`. -/
structure PovmGlobal where
  odims : List ℕ
  hdims : List ℕ
  T : List ℕ → List ℕ → List ℕ → ℂ

/-- `support = tuple(outdim > 1 for outdim in self.outdims)` of
`find_matching_elements`. -/
def fm_support (sodims : List ℕ) : List Bool := sodims.map (fun e => decide (1 < e))

/-- One site of the projector `tr`: `np.eye(outdim)` where `self` measures,
`np.ones((1, outdim))` (sum over the outcome) where `self` has a singleton
outcome. -/
def tr_entry (keep : Bool) (a b : ℕ) : ℂ :=
  if keep then (if a = b then 1 else 0) else (if a = 0 then 1 else 0)

/-- Global tensor of `tr = mp.MPArray.from_kron([...])`. -/
def tr_kron : List Bool → List ℕ → List ℕ → ℂ
  | [], [], [] => 1
  | keep :: ks, a :: xs, b :: ys => tr_entry keep a b * tr_kron ks xs ys
  | _, _, _ => 0

/-- `other = MPPovm(mp.dot(tr, other))`: the chain `other` with the outcome
index summed out wherever `self` has a singleton outcome. -/
noncomputable def fm_proj (A B : PovmGlobal) (js rs cs : List ℕ) : ℂ :=
  sumOver B.odims (fun j1 => tr_kron (fm_support A.odims) js j1 * B.T j1 rs cs)

/-- Outcome dimensions of the projected `other`. -/
def fm_proj_odims (A B : PovmGlobal) : List ℕ :=
  List.zipWith (fun keep e => if keep then e else 1) (fm_support A.odims) B.odims

/-- Dense semantics of `mp.dot(x.conj(), y, axes=((1, 2), (1, 2)))`: the
Hilbert-Schmidt inner products between the elements of two chains. -/
noncomputable def hs_inner (hdims : List ℕ) (S O : List ℕ → List ℕ → List ℕ → ℂ)
    (is js : List ℕ) : ℂ :=
  sumOver hdims (fun rs => sumOver hdims (fun cs => star (S is rs cs) * O js rs cs))

/-- Global tensor of the diagonal selector
`np.fromfunction(lambda i, j, k: (i == j) & (j == k), [outdim] * 3)` kron. -/
def eye3_kron : List ℕ → List ℕ → List ℕ → ℂ
  | [], [], [] => 1
  | a :: xs, b :: ys, c :: zs => (if a = b ∧ b = c then 1 else 0) * eye3_kron xs ys zs
  | _, _, _ => 0

/-- `snormsq` of `find_matching_elements`: squared norms of the elements of
`self`, obtained by contracting the diagonal selector against the
element-pair inner products, then taking the real part. -/
noncomputable def fm_snormsq (A : PovmGlobal) (is : List ℕ) : ℝ :=
  (sumOver A.odims (fun js => sumOver A.odims (fun ks =>
    eye3_kron is js ks * hs_inner A.hdims A.T A.T js ks))).re

/-- `onormsq` of `find_matching_elements`: squared norms of the elements of
the projected `other`. -/
noncomputable def fm_onormsq (A B : PovmGlobal) (js : List ℕ) : ℝ :=
  (sumOver (fm_proj_odims A B) (fun j1 => sumOver (fm_proj_odims A B) (fun k1 =>
    eye3_kron js j1 k1 * hs_inner A.hdims (fm_proj A B) (fm_proj A B) j1 k1))).re

/-- `inner = abs(...)**2` of `find_matching_elements`: squared magnitudes of
the inner products between elements of `self` and of the projected `other`. -/
noncomputable def fm_innersq (A B : PovmGlobal) (is js : List ℕ) : ℝ :=
  (Complex.abs (hs_inner A.hdims A.T (fm_proj A B) is js)) ^ 2

/-- `match = abs(inner/normprod - 1) <= eps` of `find_matching_elements`,
with `normprod = np.outer(snormsq, onormsq)`: equality within `eps` in the
Cauchy-Schwarz inequality flags proportional POVM elements. -/
def fm_match (A B : PovmGlobal) (eps : ℝ) (is js : List ℕ) : Prop :=
  |fm_innersq A B is js / (fm_snormsq A is * fm_onormsq A B js) - 1| ≤ eps

/-- `prefactors = (snormsq / onormsq)**0.5` with `prefactors[~match] = np.nan`:
the reweighting factor at a matched outcome pair is the square root of the
ratio of squared norms; a non-matched pair holds the undefined sentinel
(`np.nan`, modelled as `Option.none`). -/
noncomputable def fm_prefactors (A B : PovmGlobal) (eps : ℝ) (is js : List ℕ) :
    Option ℝ :=
  open Classical in
  if fm_match A B eps is js then
    some (Real.sqrt (fm_snormsq A is / fm_onormsq A B js))
  else none

/-- C6: in the result of `find_matching_elements` (with the code-asserted
positivity of the squared norms), the prefactor at a matched outcome pair is
the square root of the ratio of the two elements' squared norms, at a
non-matched pair it is the undefined sentinel (`np.nan`, modelled as `none`)
rather than zero, and no entry of the prefactor tensor is the value zero. -/
theorem fm_prefactors_spec (A B : PovmGlobal) (eps : ℝ) (is js : List ℕ)
    (hs : 0 < fm_snormsq A is) (ho : 0 < fm_onormsq A B js) :
    (fm_match A B eps is js →
      fm_prefactors A B eps is js =
        some (Real.sqrt (fm_snormsq A is / fm_onormsq A B js))) ∧
    (¬ fm_match A B eps is js → fm_prefactors A B eps is js = none) ∧
    fm_prefactors A B eps is js ≠ some 0 := by
  classical
  refine ⟨?_, ?_, ?_⟩
  · intro hm
    unfold fm_prefactors
    rw [if_pos hm]
  · intro hm
    unfold fm_prefactors
    rw [if_neg hm]
  · have hsqrt : 0 < Real.sqrt (fm_snormsq A is / fm_onormsq A B js) :=
      Real.sqrt_pos.mpr (div_pos hs ho)
    unfold fm_prefactors
    by_cases hm : fm_match A B eps is js
    · rw [if_pos hm]
      intro hcontra
      have := Option.some.inj hcontra
      exact absurd this.symm (ne_of_lt hsqrt)
    · rw [if_neg hm]
      intro hcontra
      exact Option.noConfusion hcontra

/-- Witness for `fm_prefactors_spec`: the trivial single-site, single-outcome
chain with unit element. -/
theorem fm_prefactors_spec_witness :
    fm_prefactors (PovmGlobal.mk [1] [1] (fun _ _ _ => 1))
      (PovmGlobal.mk [1] [1] (fun _ _ _ => 1)) (1/2) [0] [0] ≠ some 0 := by
  have hs : (0 : ℝ) < fm_snormsq (PovmGlobal.mk [1] [1] (fun _ _ _ => 1)) [0] := by
    norm_num [fm_snormsq, hs_inner, eye3_kron, sumOver, Finset.sum_range_one]
    exact ⟨0, by simp⟩
  have ho : (0 : ℝ) < fm_onormsq (PovmGlobal.mk [1] [1] (fun _ _ _ => 1))
      (PovmGlobal.mk [1] [1] (fun _ _ _ => 1)) [0] := by
    norm_num [fm_onormsq, hs_inner, eye3_kron, fm_proj, fm_proj_odims, fm_support,
      tr_kron, tr_entry, sumOver, Finset.sum_range_one]
  exact (fm_prefactors_spec (PovmGlobal.mk [1] [1] (fun _ _ _ => 1))
    (PovmGlobal.mk [1] [1] (fun _ _ _ => 1)) (1/2) [0] [0] hs ho).2.2

/-- The concrete single-site POVM used against claim C5: two distinct elements
`e0 = [[1/3]]` and `e1 = [[2/3]]` on a one-dimensional Hilbert space (a valid
POVM: `e0 + e1` is the identity), which are proportional to each other. -/
noncomputable def cx_povm : PovmGlobal :=
  PovmGlobal.mk [2] [1]
    (fun os _ _ => if os = [0] then ((1/3 : ℝ) : ℂ)
      else if os = [1] then ((2/3 : ℝ) : ℂ) else 0)

theorem cx_proj0 : ∀ rs cs : List ℕ, fm_proj cx_povm cx_povm [0] rs cs = ((1/3 : ℝ) : ℂ) := by
  intro rs cs
  norm_num [fm_proj, fm_support, tr_kron, tr_entry, cx_povm, sumOver,
    Finset.sum_range_succ, Finset.sum_range_zero]

theorem cx_proj1 : ∀ rs cs : List ℕ, fm_proj cx_povm cx_povm [1] rs cs = ((2/3 : ℝ) : ℂ) := by
  intro rs cs
  norm_num [fm_proj, fm_support, tr_kron, tr_entry, cx_povm, sumOver,
    Finset.sum_range_succ, Finset.sum_range_zero]

/-- C5 counterexample: matching the counterexample POVM against itself reports
the off-diagonal outcome pair `(0, 1)` as a match (with `eps = 1e-10` as in
the source), because the two distinct elements are proportional and attain
equality in the Cauchy-Schwarz inequality — refuting "every off-diagonal
outcome pair is a non-match" for product POVMs with two distinct single-site
outcomes. -/
theorem fm_offdiag_match_counterexample :
    cx_povm.T [0] [0] [0] ≠ cx_povm.T [1] [0] [0] ∧
    fm_match cx_povm cx_povm (1 / 10 ^ 10) [0] [1] := by
  have hT0 : ∀ rs cs : List ℕ, cx_povm.T [0] rs cs = ((1/3 : ℝ) : ℂ) := by
    intro rs cs
    norm_num [cx_povm]
  have hT1 : ∀ rs cs : List ℕ, cx_povm.T [1] rs cs = ((2/3 : ℝ) : ℂ) := by
    intro rs cs
    norm_num [cx_povm]
  have hstar : ∀ x y : ℝ, star ((x : ℂ)) * ((y : ℂ)) = ((x * y : ℝ) : ℂ) := by
    intro x y
    rw [Complex.star_def, Complex.conj_ofReal, ← Complex.ofReal_mul]
  have hsum1 : ∀ f : List ℕ → ℂ, sumOver [1] f = f [0] := by
    intro f
    simp [sumOver, Finset.sum_range_one]
  have hsum2 : ∀ f : List ℕ → ℂ, sumOver [2] f = f [0] + f [1] := by
    intro f
    simp [sumOver, Finset.sum_range_succ, Finset.sum_range_one]
  have hhd : cx_povm.hdims = [1] := rfl
  have hod : cx_povm.odims = [2] := rfl
  have hpod : fm_proj_odims cx_povm cx_povm = [2] := rfl
  constructor
  · norm_num [cx_povm]
  · have hin : hs_inner cx_povm.hdims cx_povm.T (fm_proj cx_povm cx_povm) [0] [1] =
        ((2/9 : ℝ) : ℂ) := by
      unfold hs_inner
      rw [hhd, hsum1, hsum1, hT0, cx_proj1, hstar]
      norm_num
    have hsn : fm_snormsq cx_povm [0] = 1/9 := by
      unfold fm_snormsq
      rw [hod]
      simp only [hsum2]
      unfold hs_inner
      rw [hhd]
      simp only [hsum1, hT0, hT1, hstar]
      simp only [eye3_kron]
      norm_num [Complex.ofReal_re]
    have hon : fm_onormsq cx_povm cx_povm [1] = 4/9 := by
      unfold fm_onormsq
      rw [hpod]
      simp only [hsum2]
      unfold hs_inner
      rw [hhd]
      simp only [hsum1, cx_proj0, cx_proj1, hstar]
      simp only [eye3_kron]
      norm_num [Complex.ofReal_re]
    unfold fm_match fm_innersq
    rw [hin, hsn, hon, Complex.abs_ofReal]
    norm_num

theorem sumOver_mul_const (ds : List ℕ) (f : List ℕ → ℂ) (c : ℂ) :
    sumOver ds (fun a => f a * c) = sumOver ds f * c := by
  induction ds generalizing f with
  | nil => rfl
  | cons d ds ih =>
      simp only [sumOver_cons]
      rw [Finset.sum_mul]
      exact Finset.sum_congr rfl (fun i _ => ih (fun j => f (i :: j)))

theorem const_mul_sumOver (ds : List ℕ) (f : List ℕ → ℂ) (c : ℂ) :
    sumOver ds (fun a => c * f a) = c * sumOver ds f := by
  induction ds generalizing f with
  | nil => rfl
  | cons d ds ih =>
      simp only [sumOver_cons]
      rw [Finset.mul_sum]
      exact Finset.sum_congr rfl (fun i _ => ih (fun j => f (i :: j)))

theorem sumOver_mul_sumOver (ds es : List ℕ) (f g : List ℕ → ℂ) :
    sumOver ds (fun a => sumOver es (fun b => f a * g b)) = sumOver ds f * sumOver es g := by
  have h1 : ∀ a, sumOver es (fun b => f a * g b) = f a * sumOver es g :=
    fun a => const_mul_sumOver es g (f a)
  calc sumOver ds (fun a => sumOver es (fun b => f a * g b))
      = sumOver ds (fun a => f a * sumOver es g) := sumOver_congr (fun a _ => h1 a)
    _ = sumOver ds f * sumOver es g := sumOver_mul_const ds f (sumOver es g)

theorem eye3_kron_eq_ite : ∀ {xs ys zs : List ℕ}, xs.length = ys.length →
    ys.length = zs.length →
    eye3_kron xs ys zs = if xs = ys ∧ ys = zs then 1 else 0 := by
  intro xs
  induction xs with
  | nil =>
      intro ys zs h1 h2
      cases ys with
      | nil =>
          cases zs with
          | nil => simp [eye3_kron]
          | cons c zs => exact absurd h2 (by simp)
      | cons b ys => exact absurd h1 (by simp)
  | cons a xs ih =>
      intro ys zs h1 h2
      cases ys with
      | nil => exact absurd h1 (by simp)
      | cons b ys =>
          cases zs with
          | nil => exact absurd h2 (by simp)
          | cons c zs =>
              have h1' : xs.length = ys.length := by simpa using h1
              have h2' : ys.length = zs.length := by simpa using h2
              show (if a = b ∧ b = c then (1 : ℂ) else 0) * eye3_kron xs ys zs = _
              rw [ih h1' h2']
              by_cases hab : a = b ∧ b = c
              · by_cases hxy : xs = ys ∧ ys = zs
                · rw [if_pos hab, if_pos hxy, one_mul,
                    if_pos ⟨by rw [hab.1, hxy.1], by rw [hab.2, hxy.2]⟩]
                · have hfalse : ¬(a :: xs = b :: ys ∧ b :: ys = c :: zs) := by
                    intro hcon
                    exact hxy ⟨by injection hcon.1, by injection hcon.2⟩
                  rw [if_pos hab, if_neg hxy, one_mul, if_neg hfalse]
              · have hfalse : ¬(a :: xs = b :: ys ∧ b :: ys = c :: zs) := by
                  intro hcon
                  exact hab ⟨by injection hcon.1, by injection hcon.2⟩
                rw [if_neg hab, zero_mul, if_neg hfalse]

/-- Contracting the diagonal selector `eye3_kron` against a two-index tensor
extracts the diagonal entry. -/
theorem fm_diag_extract (odims : List ℕ) (F : List ℕ → List ℕ → ℂ) {is : List ℕ}
    (his : IdxOk odims is) :
    sumOver odims (fun js => sumOver odims (fun ks => eye3_kron is js ks * F js ks)) =
      F is is := by
  have hlen : is.length = odims.length := IdxOk_length his
  have h1 : ∀ js, IdxOk odims js →
      sumOver odims (fun ks => eye3_kron is js ks * F js ks) =
        if is = js then F js js else 0 := by
    intro js hjs
    have hjslen : js.length = odims.length := IdxOk_length hjs
    by_cases hij : is = js
    · subst hij
      rw [if_pos rfl]
      have h2 : ∀ ks, IdxOk odims ks → eye3_kron is is ks * F is ks =
          (if is = ks then F is ks else 0) := by
        intro ks hks
        rw [eye3_kron_eq_ite rfl (hlen.trans (IdxOk_length hks).symm)]
        by_cases h : is = ks
        · simp [h]
        · simp [h]
      rw [sumOver_congr h2, sumOver_ite_eq his]
    · rw [if_neg hij]
      have h2 : ∀ ks, IdxOk odims ks → eye3_kron is js ks * F js ks = 0 := by
        intro ks hks
        rw [eye3_kron_eq_ite (hlen.trans hjslen.symm) (hjslen.trans (IdxOk_length hks).symm)]
        simp [hij]
      rw [sumOver_congr h2]
      exact sumOver_zero odims
  calc sumOver odims (fun js => sumOver odims (fun ks => eye3_kron is js ks * F js ks))
      = sumOver odims (fun js => if is = js then F js js else 0) :=
        sumOver_congr (fun js hjs => h1 js hjs)
    _ = F is is := sumOver_ite_eq his (fun js => F js js)

/-- With every outcome dimension of `self` larger than one, the projector `tr`
is a kron of identities and the projected `other` equals `other`. -/
theorem fm_proj_all_keep (A B : PovmGlobal) (hsup : ∀ e ∈ A.odims, 1 < e)
    (hlen : A.odims.length = B.odims.length) {js : List ℕ} (hjs : IdxOk B.odims js)
    (rs cs : List ℕ) : fm_proj A B js rs cs = B.T js rs cs := by
  unfold fm_proj
  have hkron : ∀ sod : List ℕ, (∀ e ∈ sod, 1 < e) → ∀ {bod : List ℕ},
      sod.length = bod.length → ∀ {js : List ℕ}, IdxOk bod js → ∀ F : List ℕ → ℂ,
      sumOver bod (fun j1 => tr_kron (fm_support sod) js j1 * F j1) = F js := by
    intro sod
    induction sod with
    | nil =>
        intro _ bod hl js hjs F
        cases bod with
        | nil =>
            cases hjs
            show sumOver [] (fun j1 => tr_kron [] [] j1 * F j1) = F []
            show tr_kron [] [] [] * F [] = F []
            rw [show tr_kron [] [] [] = 1 from rfl, one_mul]
        | cons b bod => exact absurd hl (by simp)
    | cons e sod ih =>
        intro hsup bod hl js hjs F
        cases bod with
        | nil => exact absurd hl (by simp)
        | cons b bod =>
            cases hjs with
            | cons hjb hrest =>
                rename_i j js'
                have hsup' : ∀ x ∈ sod, 1 < x :=
                  fun x hx => hsup x (List.mem_cons_of_mem e hx)
                have hl' : sod.length = bod.length := by simpa using hl
                have he : 1 < e := hsup e (List.mem_cons_self e sod)
                show sumOver (b :: bod)
                  (fun j1 => tr_kron (fm_support (e :: sod)) (j :: js') j1 * F j1) = F (j :: js')
                rw [sumOver_cons]
                have hentry : ∀ i t, tr_kron (fm_support (e :: sod)) (j :: js') (i :: t) =
                    (if j = i then (1 : ℂ) else 0) * tr_kron (fm_support sod) js' t := by
                  intro i t
                  show tr_entry (decide (1 < e)) j i * tr_kron (fm_support sod) js' t = _
                  rw [show decide (1 < e) = true from decide_eq_true he]
                  rfl
                have hterm : ∀ i, i ∈ Finset.range b →
                    sumOver bod (fun t => tr_kron (fm_support (e :: sod)) (j :: js') (i :: t) *
                      F (i :: t)) =
                    (if j = i then (1 : ℂ) else 0) *
                      sumOver bod (fun t => tr_kron (fm_support sod) js' t * F (i :: t)) := by
                  intro i _
                  rw [← const_mul_sumOver]
                  refine sumOver_congr (fun t _ => ?_)
                  rw [hentry i t, mul_assoc]
                rw [Finset.sum_congr rfl hterm]
                rw [Finset.sum_eq_single j]
                · rw [if_pos rfl, one_mul]
                  exact ih hsup' hl' hrest (fun t => F (j :: t))
                · intro k _ hk
                  rw [if_neg (Ne.symm hk), zero_mul]
                · intro hj
                  exact absurd (Finset.mem_range.mpr hjb) hj
  exact hkron A.odims hsup hlen hjs (fun j1 => B.T j1 rs cs)

/-- Global tensor of `MPPovm.from_local_povm(lelems, width)` (via `from_kron`,
modelled from the spec's kron collaborator: the global tensor of a kron chain
is the product of the per-site factors): every site carries the same local
POVM with elements `el a` (outcome `a`, operator entry `el a r c`). -/
def kron3 (el : ℕ → ℕ → ℕ → ℂ) : List ℕ → List ℕ → List ℕ → ℂ
  | [], [], [] => 1
  | a :: xs, r :: rs, c :: cs => el a r c * kron3 el xs rs cs
  | _, _, _ => 0

/-- The product POVM of `from_local_povm`: `m` outcomes and Hilbert dimension
`d` at each of `w` sites. -/
def local_povm_chain (m d w : ℕ) (el : ℕ → ℕ → ℕ → ℂ) : PovmGlobal :=
  PovmGlobal.mk (List.replicate w m) (List.replicate w d) (kron3 el)

/-- Hilbert-Schmidt inner product of two local POVM elements. -/
noncomputable def loc_inner (d : ℕ) (el : ℕ → ℕ → ℕ → ℂ) (a b : ℕ) : ℂ :=
  ∑ r in Finset.range d, ∑ c in Finset.range d, star (el a r c) * el b r c

/-- Squared Hilbert-Schmidt norm of a local POVM element. -/
noncomputable def loc_normsq (d : ℕ) (el : ℕ → ℕ → ℕ → ℂ) (a : ℕ) : ℝ :=
  (loc_inner d el a a).re

/-- The Hilbert-Schmidt inner products of a product chain factorize into the
per-site local inner products. -/
theorem hs_inner_kron (d : ℕ) (el : ℕ → ℕ → ℕ → ℂ) :
    ∀ (w : ℕ) (xs ys : List ℕ), xs.length = w → ys.length = w →
    hs_inner (List.replicate w d) (kron3 el) (kron3 el) xs ys =
      (List.zipWith (fun a b => loc_inner d el a b) xs ys).prod := by
  intro w
  induction w with
  | zero =>
      intro xs ys hx hy
      rw [List.length_eq_zero.mp hx, List.length_eq_zero.mp hy]
      show sumOver (List.replicate 0 d) (fun rs => sumOver (List.replicate 0 d)
        (fun cs => star (kron3 el [] rs cs) * kron3 el [] rs cs)) = _
      simp [sumOver, kron3]
  | succ w ih =>
      intro xs ys hx hy
      obtain ⟨a, xs', rfl⟩ : ∃ a xs', xs = a :: xs' := by
        cases xs with
        | nil => exact absurd hx (by simp)
        | cons a xs' => exact ⟨a, xs', rfl⟩
      obtain ⟨b, ys', rfl⟩ : ∃ b ys', ys = b :: ys' := by
        cases ys with
        | nil => exact absurd hy (by simp)
        | cons b ys' => exact ⟨b, ys', rfl⟩
      have hx' : xs'.length = w := by simpa using hx
      have hy' : ys'.length = w := by simpa using hy
      show sumOver (d :: List.replicate w d) (fun rs => sumOver (d :: List.replicate w d)
        (fun cs => star (kron3 el (a :: xs') rs cs) * kron3 el (b :: ys') rs cs)) = _
      rw [sumOver_cons]
      have hinner : ∀ r, r ∈ Finset.range d →
          sumOver (List.replicate w d) (fun rs => sumOver (d :: List.replicate w d)
            (fun cs => star (kron3 el (a :: xs') (r :: rs) cs) *
              kron3 el (b :: ys') (r :: rs) cs)) =
          ∑ c in Finset.range d, ((star (el a r c) * el b r c) *
            sumOver (List.replicate w d) (fun rs => sumOver (List.replicate w d)
              (fun cs => star (kron3 el xs' rs cs) * kron3 el ys' rs cs))) := by
        intro r _
        have hsplit : ∀ rs, sumOver (d :: List.replicate w d)
            (fun cs => star (kron3 el (a :: xs') (r :: rs) cs) *
              kron3 el (b :: ys') (r :: rs) cs) =
            ∑ c in Finset.range d, ((star (el a r c) * el b r c) *
              sumOver (List.replicate w d)
                (fun cs => star (kron3 el xs' rs cs) * kron3 el ys' rs cs)) := by
          intro rs
          rw [sumOver_cons]
          refine Finset.sum_congr rfl (fun c _ => ?_)
          have hterm : ∀ cs, star (kron3 el (a :: xs') (r :: rs) (c :: cs)) *
              kron3 el (b :: ys') (r :: rs) (c :: cs) =
              (star (el a r c) * el b r c) *
                (star (kron3 el xs' rs cs) * kron3 el ys' rs cs) := by
            intro cs
            show star (el a r c * kron3 el xs' rs cs) * (el b r c * kron3 el ys' rs cs) = _
            rw [star_mul']
            ring
          rw [sumOver_congr (fun cs _ => hterm cs), const_mul_sumOver]
        rw [sumOver_congr (fun rs _ => hsplit rs), sumOver_finsetSum]
        refine Finset.sum_congr rfl (fun c _ => ?_)
        rw [const_mul_sumOver]
      rw [Finset.sum_congr rfl hinner]
      have hG : (sumOver (List.replicate w d) fun rs => sumOver (List.replicate w d)
          fun cs => star (kron3 el xs' rs cs) * kron3 el ys' rs cs) =
          (List.zipWith (fun a b => loc_inner d el a b) xs' ys').prod := ih xs' ys' hx' hy'
      simp only [hG]
      rw [show (List.zipWith (fun a b => loc_inner d el a b) (a :: xs') (b :: ys')).prod =
          loc_inner d el a b *
            (List.zipWith (fun a b => loc_inner d el a b) xs' ys').prod from by
        rw [List.zipWith_cons_cons, List.prod_cons]]
      rw [loc_inner, Finset.sum_mul]
      refine Finset.sum_congr rfl (fun r _ => ?_)
      rw [Finset.sum_mul]

theorem loc_inner_self_sum (d : ℕ) (el : ℕ → ℕ → ℕ → ℂ) (a : ℕ) :
    loc_inner d el a a =
      ((∑ r in Finset.range d, ∑ c in Finset.range d, Complex.normSq (el a r c) : ℝ) : ℂ) := by
  unfold loc_inner
  push_cast
  refine Finset.sum_congr rfl (fun r _ => ?_)
  refine Finset.sum_congr rfl (fun c _ => ?_)
  rw [Complex.star_def, Complex.normSq_eq_conj_mul_self]

theorem loc_inner_self (d : ℕ) (el : ℕ → ℕ → ℕ → ℂ) (a : ℕ) :
    loc_inner d el a a = ((loc_normsq d el a : ℝ) : ℂ) := by
  rw [loc_inner_self_sum]
  unfold loc_normsq
  rw [loc_inner_self_sum, Complex.ofReal_re]

theorem loc_normsq_nonneg (d : ℕ) (el : ℕ → ℕ → ℕ → ℂ) (a : ℕ) :
    0 ≤ loc_normsq d el a := by
  unfold loc_normsq
  rw [loc_inner_self_sum, Complex.ofReal_re]
  refine Finset.sum_nonneg (fun r _ => ?_)
  exact Finset.sum_nonneg (fun c _ => Complex.normSq_nonneg (el a r c))

/-- The Cauchy-Schwarz inequality for local POVM elements (the bound asserted
by `find_matching_elements` before testing for equality). -/
theorem loc_inner_cs (d : ℕ) (el : ℕ → ℕ → ℕ → ℂ) (a b : ℕ) :
    (Complex.abs (loc_inner d el a b)) ^ 2 ≤ loc_normsq d el a * loc_normsq d el b := by
  classical
  let v : ℕ → EuclideanSpace ℂ (Fin d × Fin d) := fun x => fun p => el x p.1 p.2
  have hip : ∀ x y : ℕ, (inner (v x) (v y) : ℂ) = loc_inner d el x y := by
    intro x y
    rw [PiLp.inner_apply]
    rw [Fintype.sum_prod_type]
    unfold loc_inner
    rw [← Fin.sum_univ_eq_sum_range
      (fun r => ∑ c in Finset.range d, star (el x r c) * el y r c) d]
    refine Finset.sum_congr rfl (fun r _ => ?_)
    rw [← Fin.sum_univ_eq_sum_range (fun c => star (el x (r : ℕ) c) * el y (r : ℕ) c) d]
    refine Finset.sum_congr rfl (fun c _ => ?_)
    rw [RCLike.inner_apply]
    rfl
  have hnorm : ∀ x : ℕ, ‖v x‖ ^ 2 = loc_normsq d el x := by
    intro x
    rw [← inner_self_eq_norm_sq (𝕜 := ℂ) (v x), hip x x]
    unfold loc_normsq
    simp [RCLike.re_to_complex]
  have hcs : ‖(inner (v a) (v b) : ℂ)‖ ≤ ‖v a‖ * ‖v b‖ := norm_inner_le_norm (v a) (v b)
  calc (Complex.abs (loc_inner d el a b)) ^ 2
      = ‖(inner (v a) (v b) : ℂ)‖ ^ 2 := by rw [hip a b, Complex.norm_eq_abs]
    _ ≤ (‖v a‖ * ‖v b‖) ^ 2 := pow_le_pow_left₀ (norm_nonneg _) hcs 2
    _ = loc_normsq d el a * loc_normsq d el b := by rw [mul_pow, hnorm a, hnorm b]

theorem fm_support_replicate (w m : ℕ) (hm : 1 < m) :
    fm_support (List.replicate w m) = List.replicate w true := by
  unfold fm_support
  rw [List.map_replicate, decide_eq_true hm]

theorem zipWith_replicate_same {α β γ : Type} (f : α → β → γ) (w : ℕ) (a : α) (b : β) :
    List.zipWith f (List.replicate w a) (List.replicate w b) = List.replicate w (f a b) := by
  induction w with
  | zero => rfl
  | succ w ih => simp [List.replicate_succ, ih]

theorem fm_proj_odims_product (m d w : ℕ) (el : ℕ → ℕ → ℕ → ℂ) (hm : 1 < m) :
    fm_proj_odims (local_povm_chain m d w el) (local_povm_chain m d w el) =
      List.replicate w m := by
  unfold fm_proj_odims
  show List.zipWith _ (fm_support (List.replicate w m)) (List.replicate w m) = _
  rw [fm_support_replicate w m hm, zipWith_replicate_same]
  simp

theorem IdxOk_replicate_mem {w m : ℕ} {is : List ℕ} (h : IdxOk (List.replicate w m) is) :
    ∀ a ∈ is, a < m := by
  induction w generalizing is with
  | zero =>
      cases h
      simp
  | succ w ih =>
      rw [List.replicate_succ] at h
      cases h with
      | cons ha hrest =>
          rename_i a is'
          intro x hx
          rcases List.mem_cons.mp hx with h1 | h2
          · rw [h1]
            exact ha
          · exact ih hrest x h2

theorem prod_locnorm_pos {m d : ℕ} {el : ℕ → ℕ → ℕ → ℂ} {w : ℕ} {is : List ℕ}
    (hpos : ∀ a, a < m → 0 < loc_normsq d el a) (his : IdxOk (List.replicate w m) is) :
    0 < (is.map (loc_normsq d el)).prod := by
  refine List.prod_pos (fun x hx => ?_)
  obtain ⟨a, ha, rfl⟩ := List.mem_map.mp hx
  exact hpos a (IdxOk_replicate_mem his a ha)

theorem abs_sq_list_prod : ∀ l : List ℂ,
    (Complex.abs l.prod) ^ 2 = (l.map (fun z => (Complex.abs z) ^ 2)).prod := by
  intro l
  induction l with
  | nil => simp
  | cons z l ih => simp [map_mul, mul_pow, ih]

theorem prod_map_sq (f : ℕ → ℝ) (l : List ℕ) :
    (l.map (fun a => f a ^ 2)).prod = ((l.map f).prod) ^ 2 := by
  induction l with
  | nil => simp
  | cons a l ih => simp [ih, mul_pow]

theorem fm_snormsq_eq_diag (A : PovmGlobal) {is : List ℕ} (his : IdxOk A.odims is) :
    fm_snormsq A is = (hs_inner A.hdims A.T A.T is is).re := by
  unfold fm_snormsq
  rw [fm_diag_extract A.odims (fun js ks => hs_inner A.hdims A.T A.T js ks) his]

theorem hs_diag_prod (d w : ℕ) (el : ℕ → ℕ → ℕ → ℂ) {is : List ℕ}
    (hlen : is.length = w) :
    (hs_inner (List.replicate w d) (kron3 el) (kron3 el) is is).re =
      (is.map (loc_normsq d el)).prod := by
  rw [hs_inner_kron d el w is is hlen hlen, List.zipWith_same]
  have h3 : is.map (fun a => loc_inner d el a a) =
      is.map (fun a => ((loc_normsq d el a : ℝ) : ℂ)) :=
    List.map_congr_left (fun a _ => loc_inner_self d el a)
  rw [h3]
  have h4 : ∀ l : List ℕ, (l.map (fun a => ((loc_normsq d el a : ℝ) : ℂ))).prod =
      (((l.map (loc_normsq d el)).prod : ℝ) : ℂ) := by
    intro l
    induction l with
    | nil => simp
    | cons a l ih =>
        simp only [List.map_cons, List.prod_cons, ih]
        push_cast
        ring
  rw [h4, Complex.ofReal_re]

theorem IdxOk_replicate_length {w m : ℕ} {is : List ℕ}
    (h : IdxOk (List.replicate w m) is) : is.length = w := by
  have := IdxOk_length h
  rwa [List.length_replicate] at this

theorem fm_snormsq_product (m d w : ℕ) (el : ℕ → ℕ → ℕ → ℂ) {is : List ℕ}
    (his : IdxOk (List.replicate w m) is) :
    fm_snormsq (local_povm_chain m d w el) is = (is.map (loc_normsq d el)).prod := by
  have h := fm_snormsq_eq_diag (local_povm_chain m d w el) his
  rw [h]
  exact hs_diag_prod d w el (IdxOk_replicate_length his)

theorem local_povm_sup (m w : ℕ) (hm : 1 < m) :
    ∀ e ∈ List.replicate w m, 1 < e := by
  intro e he
  rw [List.eq_of_mem_replicate he]
  exact hm

theorem fm_onormsq_product (m d w : ℕ) (el : ℕ → ℕ → ℕ → ℂ) (hm : 1 < m) {js : List ℕ}
    (hjs : IdxOk (List.replicate w m) js) :
    fm_onormsq (local_povm_chain m d w el) (local_povm_chain m d w el) js =
      (js.map (loc_normsq d el)).prod := by
  unfold fm_onormsq
  rw [fm_proj_odims_product m d w el hm]
  rw [fm_diag_extract (List.replicate w m)
    (fun j1 k1 => hs_inner (local_povm_chain m d w el).hdims
      (fm_proj (local_povm_chain m d w el) (local_povm_chain m d w el))
      (fm_proj (local_povm_chain m d w el) (local_povm_chain m d w el)) j1 k1) hjs]
  have hcongr : hs_inner (local_povm_chain m d w el).hdims
      (fm_proj (local_povm_chain m d w el) (local_povm_chain m d w el))
      (fm_proj (local_povm_chain m d w el) (local_povm_chain m d w el)) js js =
      hs_inner (List.replicate w d) (kron3 el) (kron3 el) js js := by
    unfold hs_inner
    refine sumOver_congr (fun rs _ => ?_)
    refine sumOver_congr (fun cs _ => ?_)
    rw [fm_proj_all_keep (local_povm_chain m d w el) (local_povm_chain m d w el)
      (local_povm_sup m w hm) rfl hjs rs cs]
    rfl
  rw [hcongr]
  exact hs_diag_prod d w el (IdxOk_replicate_length hjs)

theorem fm_innersq_product (m d w : ℕ) (el : ℕ → ℕ → ℕ → ℂ) (hm : 1 < m)
    {is js : List ℕ} (his : IdxOk (List.replicate w m) is)
    (hjs : IdxOk (List.replicate w m) js) :
    fm_innersq (local_povm_chain m d w el) (local_povm_chain m d w el) is js =
      (List.zipWith (fun a b => (Complex.abs (loc_inner d el a b)) ^ 2) is js).prod := by
  unfold fm_innersq
  have hcongr : hs_inner (local_povm_chain m d w el).hdims
      (local_povm_chain m d w el).T
      (fm_proj (local_povm_chain m d w el) (local_povm_chain m d w el)) is js =
      hs_inner (List.replicate w d) (kron3 el) (kron3 el) is js := by
    unfold hs_inner
    refine sumOver_congr (fun rs _ => ?_)
    refine sumOver_congr (fun cs _ => ?_)
    rw [fm_proj_all_keep (local_povm_chain m d w el) (local_povm_chain m d w el)
      (local_povm_sup m w hm) rfl hjs rs cs]
    rfl
  rw [hcongr, hs_inner_kron d el w is js (IdxOk_replicate_length his)
    (IdxOk_replicate_length hjs), abs_sq_list_prod, List.map_zipWith]

theorem zip_ratio_nonneg (d : ℕ) (el : ℕ → ℕ → ℕ → ℂ) : ∀ (is js : List ℕ),
    0 ≤ (List.zipWith (fun a b => (Complex.abs (loc_inner d el a b)) ^ 2) is js).prod := by
  intro is
  induction is with
  | nil =>
      intro js
      simp
  | cons a is ih =>
      intro js
      cases js with
      | nil => simp
      | cons b js =>
          rw [List.zipWith_cons_cons, List.prod_cons]
          exact mul_nonneg (sq_nonneg _) (ih js)

theorem prod_ratio_le (m d : ℕ) (el : ℕ → ℕ → ℕ → ℂ) : ∀ {w : ℕ} {is js : List ℕ},
    IdxOk (List.replicate w m) is → IdxOk (List.replicate w m) js →
    (List.zipWith (fun a b => (Complex.abs (loc_inner d el a b)) ^ 2) is js).prod ≤
      (is.map (loc_normsq d el)).prod * (js.map (loc_normsq d el)).prod := by
  intro w
  induction w with
  | zero =>
      intro is js his hjs
      cases his
      cases hjs
      simp
  | succ w ih =>
      intro is js his hjs
      rw [List.replicate_succ] at his hjs
      cases his with
      | cons ha his2 =>
          cases hjs with
          | cons hb hjs2 =>
              rename_i a is' b js'
              rw [List.zipWith_cons_cons, List.map_cons, List.map_cons,
                List.prod_cons, List.prod_cons, List.prod_cons]
              have h1 := loc_inner_cs d el a b
              have h2 := ih his2 hjs2
              have hnn := zip_ratio_nonneg d el is' js'
              have hNh : 0 ≤ loc_normsq d el a * loc_normsq d el b :=
                mul_nonneg (loc_normsq_nonneg d el a) (loc_normsq_nonneg d el b)
              calc (Complex.abs (loc_inner d el a b)) ^ 2 *
                    (List.zipWith (fun a b => (Complex.abs (loc_inner d el a b)) ^ 2)
                      is' js').prod
                  ≤ (loc_normsq d el a * loc_normsq d el b) *
                    ((is'.map (loc_normsq d el)).prod * (js'.map (loc_normsq d el)).prod) :=
                    mul_le_mul h1 h2 hnn hNh
                _ = loc_normsq d el a * (is'.map (loc_normsq d el)).prod *
                    (loc_normsq d el b * (js'.map (loc_normsq d el)).prod) := by ring

theorem prod_ratio_lt (m d : ℕ) (el : ℕ → ℕ → ℕ → ℂ) (eps : ℝ)
    (hpos : ∀ a, a < m → 0 < loc_normsq d el a)
    (hcs : ∀ a b, a < m → b < m → a ≠ b →
      (Complex.abs (loc_inner d el a b)) ^ 2 <
        (1 - eps) * (loc_normsq d el a * loc_normsq d el b)) :
    ∀ {w : ℕ} {is js : List ℕ},
    IdxOk (List.replicate w m) is → IdxOk (List.replicate w m) js → is ≠ js →
    (List.zipWith (fun a b => (Complex.abs (loc_inner d el a b)) ^ 2) is js).prod <
      (1 - eps) * ((is.map (loc_normsq d el)).prod * (js.map (loc_normsq d el)).prod) := by
  intro w
  induction w with
  | zero =>
      intro is js his hjs hne
      cases his
      cases hjs
      exact absurd rfl hne
  | succ w ih =>
      intro is js his hjs hne
      rw [List.replicate_succ] at his hjs
      cases his with
      | cons ha his2 =>
          cases hjs with
          | cons hb hjs2 =>
              rename_i a is' b js'
              rw [List.zipWith_cons_cons, List.map_cons, List.map_cons,
                List.prod_cons, List.prod_cons, List.prod_cons]
              by_cases hab : a = b
              · subst hab
                have hne' : is' ≠ js' := by
                  intro h
                  exact hne (by rw [h])
                have hIH := ih his2 hjs2 hne'
                have hρh : (Complex.abs (loc_inner d el a a)) ^ 2 =
                    loc_normsq d el a ^ 2 := by
                  rw [loc_inner_self, Complex.abs_ofReal, sq_abs]
                have hsq : 0 < loc_normsq d el a ^ 2 := pow_pos (hpos a ha) 2
                rw [hρh]
                calc loc_normsq d el a ^ 2 *
                      (List.zipWith (fun a b => (Complex.abs (loc_inner d el a b)) ^ 2)
                        is' js').prod
                    < loc_normsq d el a ^ 2 * ((1 - eps) *
                        ((is'.map (loc_normsq d el)).prod *
                          (js'.map (loc_normsq d el)).prod)) :=
                      mul_lt_mul_of_pos_left hIH hsq
                  _ = (1 - eps) * (loc_normsq d el a * (is'.map (loc_normsq d el)).prod *
                      (loc_normsq d el a * (js'.map (loc_normsq d el)).prod)) := by ring
              · have hhead := hcs a b ha hb hab
                have htail := prod_ratio_le m d el his2 hjs2
                have hρnn : (0:ℝ) ≤ (Complex.abs (loc_inner d el a b)) ^ 2 := sq_nonneg _
                have hpis : 0 < (is'.map (loc_normsq d el)).prod :=
                  prod_locnorm_pos hpos his2
                have hpjs : 0 < (js'.map (loc_normsq d el)).prod :=
                  prod_locnorm_pos hpos hjs2
                calc (Complex.abs (loc_inner d el a b)) ^ 2 *
                      (List.zipWith (fun a b => (Complex.abs (loc_inner d el a b)) ^ 2)
                        is' js').prod
                    ≤ (Complex.abs (loc_inner d el a b)) ^ 2 *
                        ((is'.map (loc_normsq d el)).prod *
                          (js'.map (loc_normsq d el)).prod) :=
                      mul_le_mul_of_nonneg_left htail hρnn
                  _ < ((1 - eps) * (loc_normsq d el a * loc_normsq d el b)) *
                        ((is'.map (loc_normsq d el)).prod *
                          (js'.map (loc_normsq d el)).prod) :=
                      mul_lt_mul_of_pos_right hhead (mul_pos hpis hpjs)
                  _ = (1 - eps) * (loc_normsq d el a * (is'.map (loc_normsq d el)).prod *
                        (loc_normsq d el b * (js'.map (loc_normsq d el)).prod)) := by ring

/-- C5 (amended): for a product-of-single-site POVM with at least two
single-site outcomes whose elements are nonzero and pairwise strictly
non-proportional (Cauchy-Schwarz ratio below `1 - eps`),
`find_matching_elements(povm, povm)` reports every diagonal outcome pair as a
match with prefactor 1 and every off-diagonal outcome pair as a non-match.
(The claim fails without the non-proportionality hypothesis: see the
counterexample with two distinct but proportional elements.) -/
theorem find_matching_self_product (m d w : ℕ) (el : ℕ → ℕ → ℕ → ℂ) (eps : ℝ)
    (hm : 2 ≤ m) (heps : 0 ≤ eps)
    (hpos : ∀ a, a < m → 0 < loc_normsq d el a)
    (hcs : ∀ a b, a < m → b < m → a ≠ b →
      (Complex.abs (loc_inner d el a b)) ^ 2 <
        (1 - eps) * (loc_normsq d el a * loc_normsq d el b)) :
    ∀ is js : List ℕ, IdxOk (List.replicate w m) is →
      IdxOk (List.replicate w m) js →
      (fm_match (local_povm_chain m d w el) (local_povm_chain m d w el) eps is is ∧
        fm_prefactors (local_povm_chain m d w el) (local_povm_chain m d w el) eps is is =
          some 1) ∧
      (is ≠ js →
        ¬ fm_match (local_povm_chain m d w el) (local_povm_chain m d w el) eps is js ∧
        fm_prefactors (local_povm_chain m d w el) (local_povm_chain m d w el) eps is js =
          none) := by
  intro is js his hjs
  have hm1 : 1 < m := hm
  have hsn := fm_snormsq_product m d w el his
  have honi := fm_onormsq_product m d w el hm1 his
  have honj := fm_onormsq_product m d w el hm1 hjs
  have hPis : 0 < (is.map (loc_normsq d el)).prod := prod_locnorm_pos hpos his
  have hPjs : 0 < (js.map (loc_normsq d el)).prod := prod_locnorm_pos hpos hjs
  constructor
  · have hinn := fm_innersq_product m d w el hm1 his his
    have hdiag : (List.zipWith (fun a b => (Complex.abs (loc_inner d el a b)) ^ 2)
        is is).prod = ((is.map (loc_normsq d el)).prod) ^ 2 := by
      rw [List.zipWith_same]
      have hmap : is.map (fun a => (Complex.abs (loc_inner d el a a)) ^ 2) =
          is.map (fun a => loc_normsq d el a ^ 2) := by
        refine List.map_congr_left (fun a _ => ?_)
        rw [loc_inner_self, Complex.abs_ofReal, sq_abs]
      rw [hmap, prod_map_sq]
    have hmatch : fm_match (local_povm_chain m d w el) (local_povm_chain m d w el)
        eps is is := by
      unfold fm_match
      rw [hinn, hsn, honi, hdiag]
      have h1 : ((is.map (loc_normsq d el)).prod) ^ 2 /
          ((is.map (loc_normsq d el)).prod * (is.map (loc_normsq d el)).prod) = 1 := by
        rw [sq]
        exact div_self (ne_of_gt (mul_pos hPis hPis))
      rw [h1, sub_self, abs_zero]
      exact heps
    refine ⟨hmatch, ?_⟩
    unfold fm_prefactors
    rw [if_pos hmatch, hsn, honi, div_self (ne_of_gt hPis), Real.sqrt_one]
  · intro hne
    have hinn := fm_innersq_product m d w el hm1 his hjs
    have hratio := prod_ratio_lt m d el eps hpos hcs his hjs hne
    have hnm : ¬ fm_match (local_povm_chain m d w el) (local_povm_chain m d w el)
        eps is js := by
      unfold fm_match
      rw [hinn, hsn, honj]
      intro habs
      have hNpos : 0 < (is.map (loc_normsq d el)).prod * (js.map (loc_normsq d el)).prod :=
        mul_pos hPis hPjs
      have hlt : (List.zipWith (fun a b => (Complex.abs (loc_inner d el a b)) ^ 2)
          is js).prod / ((is.map (loc_normsq d el)).prod * (js.map (loc_normsq d el)).prod) <
          1 - eps := (div_lt_iff₀ hNpos).mpr hratio
      have h3 : 1 - (List.zipWith (fun a b => (Complex.abs (loc_inner d el a b)) ^ 2)
          is js).prod / ((is.map (loc_normsq d el)).prod *
            (js.map (loc_normsq d el)).prod) ≤
          |(List.zipWith (fun a b => (Complex.abs (loc_inner d el a b)) ^ 2)
            is js).prod / ((is.map (loc_normsq d el)).prod *
              (js.map (loc_normsq d el)).prod) - 1| := by
        rw [abs_sub_comm]
        exact le_abs_self _
      linarith
    refine ⟨hnm, ?_⟩
    unfold fm_prefactors
    rw [if_neg hnm]

/-- Witness for `find_matching_self_product`: the projective measurement with
elements `e0 = diag(1, 0)` and `e1 = diag(0, 1)` on one site. -/
theorem find_matching_self_product_witness :
    fm_match
      (local_povm_chain 2 2 1 (fun a r c => if a = r ∧ r = c then 1 else 0))
      (local_povm_chain 2 2 1 (fun a r c => if a = r ∧ r = c then 1 else 0))
      (1/2) [0] [0] ∧
    ¬ fm_match
      (local_povm_chain 2 2 1 (fun a r c => if a = r ∧ r = c then 1 else 0))
      (local_povm_chain 2 2 1 (fun a r c => if a = r ∧ r = c then 1 else 0))
      (1/2) [0] [1] := by
  have hval0 : IdxOk (List.replicate 1 2) [0] := by decide
  have hval1 : IdxOk (List.replicate 1 2) [1] := by decide
  have hloc : ∀ a b : ℕ, a < 2 → b < 2 →
      loc_inner 2 (fun a r c => if a = r ∧ r = c then (1:ℂ) else 0) a b =
        if a = b then 1 else 0 := by
    intro a b ha hb
    interval_cases a <;> interval_cases b <;>
      norm_num [loc_inner, Finset.sum_range_succ, Finset.sum_range_one]
  have hnorm : ∀ a : ℕ, a < 2 →
      loc_normsq 2 (fun a r c => if a = r ∧ r = c then (1:ℂ) else 0) a = 1 := by
    intro a ha
    unfold loc_normsq
    rw [hloc a a ha ha, if_pos rfl]
    norm_num
  have hpos : ∀ a, a < 2 →
      0 < loc_normsq 2 (fun a r c => if a = r ∧ r = c then (1:ℂ) else 0) a := by
    intro a ha
    rw [hnorm a ha]
    norm_num
  have hcs : ∀ a b, a < 2 → b < 2 → a ≠ b →
      (Complex.abs (loc_inner 2 (fun a r c => if a = r ∧ r = c then (1:ℂ) else 0) a b)) ^ 2 <
        (1 - 1/2) * (loc_normsq 2 (fun a r c => if a = r ∧ r = c then (1:ℂ) else 0) a *
          loc_normsq 2 (fun a r c => if a = r ∧ r = c then (1:ℂ) else 0) b) := by
    intro a b ha hb hab
    rw [hloc a b ha hb, if_neg hab, hnorm a ha, hnorm b hb]
    norm_num
  have h := find_matching_self_product 2 2 1
    (fun a r c => if a = r ∧ r = c then (1:ℂ) else 0) (1/2)
    (le_refl 2) (by norm_num) hpos hcs [0] [1] hval0 hval1
  exact ⟨h.1.1, (h.2 (by decide)).1⟩
